import Mathlib

/-!
Verification of the GraphQL pagination and aggregation logic of
query_github.py (repository carl-m-healy/git_ingest).

The Python source works on loosely structured JSON dictionaries.  We embed
the relevant values as an inductive JSON type and translate the functions
of src/query_github.py:

* Json               - JSON values, with Python truthiness (Json.truthy);
* fget / setKey      - Python dict lookup and dict assignment on
                       association lists (assignment replaces the value in
                       place, or appends a fresh key at the end);
* fetchPages         - _fetch_paginated_gql_data: the transport together
                       with the query builder and the extractor is modelled
                       as a script, the list of extracted pages the upstream
                       serves to this pagination chain in request order.
                       The function returns the accumulated nodes, the list
                       of after-cursors of the requests it issued (in
                       order), and whether the loop finished on its own
                       (False means the script ran out while the loop still
                       wanted another page);
* githubGraphql      - _github_graphql: per-attempt transport outcomes are
                       given as a list, one entry per HTTP attempt;
* fetchReposFullGraphql / listReposBranchesGraphql - the two aggregators.
-/

namespace GitIngest

/-- JSON values as manipulated by the Python source. -/
inductive Json where
  | null : Json
  | bool : Bool → Json
  | num : Int → Json
  | str : String → Json
  | arr : List Json → Json
  | obj : List (String × Json) → Json

/-- Python truthiness of a JSON value (used by if- and while-conditions in
the source). -/
def Json.truthy : Json → Bool
  | .null => false
  | .bool b => b
  | .num n => n != 0
  | .str s => s != ""
  | .arr xs => !xs.isEmpty
  | .obj fs => !fs.isEmpty

/-- Lookup of a key in an association list, first binding wins (Python dict
field access). -/
def fget {α : Type} : List (String × α) → String → Option α
  | [], _ => none
  | (k', v) :: rest, k => if k' = k then some v else fget rest k

/-- Python dict assignment: replace the value of an existing key in place,
otherwise append the new binding at the end. -/
def setKey {α : Type} : List (String × α) → String → α → List (String × α)
  | [], k, v => [(k, v)]
  | (k', v') :: rest, k, v =>
      if k' = k then (k, v) :: rest else (k', v') :: setKey rest k v

/-- The keys of an association list, in order. -/
def keysOf {α : Type} (m : List (String × α)) : List String := m.map Prod.fst

/-- Field access on a JSON value: some value when it is an object carrying
the key, none otherwise. -/
def Json.get : Json → String → Option Json
  | .obj fs, k => fget fs k
  | _, _ => none

/-- Python d.get(k, default-dict): an absent key yields an empty field list,
a present object yields its fields, and anything else makes the subsequent
dict operations of the source crash (modelled as none, a fatal run). -/
def fgetDict (fs : List (String × Json)) (k : String) : Option (List (String × Json)) :=
  match fget fs k with
  | none => some []
  | some (.obj gs) => some gs
  | some _ => none

/-- Python d.get(k, default-list): an absent key yields an empty list, a
present array yields its elements, anything else is a fatal run. -/
def fgetList (fs : List (String × Json)) (k : String) : Option (List Json) :=
  match fget fs k with
  | none => some []
  | some (.arr xs) => some xs
  | some _ => none

/-- Replace one field of a JSON object, leaving any non-object unchanged. -/
def Json.setField : Json → String → Json → Json
  | .obj fs, k, v => .obj (setKey fs k v)
  | j, _, _ => j

/-- One extracted page: the nodes list and the raw pageInfo dictionary, as
returned by an extractor of the source. -/
structure Page where
  nodes : List Json
  pageInfo : Json

/-- Whether a page makes the pagination loop continue: the truthiness of
pageInfo.get with key hasNextPage and default False. -/
def Page.continues (p : Page) : Bool :=
  ((p.pageInfo.get "hasNextPage").getD .null).truthy

/-- The endCursor a page hands to the next request: pageInfo.get with key
endCursor, where an absent key is Python None, embedded as Json.null. -/
def Page.nextCursor (p : Page) : Json :=
  (p.pageInfo.get "endCursor").getD .null

/-- Embedding of _fetch_paginated_gql_data.  The script is the sequence of
extracted pages the upstream serves to this chain, in request order; the
cursor is the current after-value (Json.null embeds Python None).  Returns
the accumulated nodes, the after-cursors of the issued requests in order,
and whether the while-loop terminated by itself; when the script runs out
while another page is wanted, the request is still recorded and the run is
marked unfinished. -/
def fetchPages : List Page → Json → List Json × List Json × Bool
  | [], cursor => ([], [cursor], false)
  | p :: rest, cursor =>
      if p.continues then
        let r := fetchPages rest p.nextCursor
        (p.nodes ++ r.1, cursor :: r.2.1, r.2.2)
      else
        (p.nodes, [cursor], true)

/-- GraphQL response body of one successful HTTP round trip: the errors list
(payload.get of key errors; an absent key is the empty list) and the optional
data payload. -/
structure GqlPayload where
  errors : List Json
  data : Option Json

/-- Outcome of one HTTP attempt of _github_graphql: a parsed body, an HTTP
error status raised by raise_for_status, or a connection error / timeout. -/
inductive HttpOutcome where
  | success : GqlPayload → HttpOutcome
  | httpError : Nat → HttpOutcome
  | netError : HttpOutcome

/-- Result of _github_graphql: the returned data, or the kind of fatal
SystemExit abort.  noMoreAttempts marks the fall-through of the attempt loop
(only reachable with a zero retry ceiling); starved is a model artifact for
an outcome list shorter than the attempts the code would make. -/
inductive GqlOutcome where
  | ok : Json → GqlOutcome
  | fatalGqlErrors : List Json → GqlOutcome
  | fatalHttp : Nat → GqlOutcome
  | fatalConn : GqlOutcome
  | noMoreAttempts : GqlOutcome
  | starved : GqlOutcome

/-- The attempt loop of _github_graphql.  One outcome is consumed per
attempt; the second component collects the backoff sleep durations
(2 ^ attempt seconds), one per retry actually performed. -/
def githubGraphqlGo (outcomes : List HttpOutcome) (attempt maxRetries : Nat) :
    GqlOutcome × List Nat :=
  if attempt > maxRetries then (.noMoreAttempts, [])
  else
    match outcomes with
    | [] => (.starved, [])
    | o :: rest =>
      match o with
      | .success p =>
          if !p.errors.isEmpty then (.fatalGqlErrors p.errors, [])
          else (.ok (p.data.getD (.obj [])), [])
      | .httpError s =>
          if s ≠ 504 ∨ attempt = maxRetries then (.fatalHttp s, [])
          else
            let r := githubGraphqlGo rest (attempt + 1) maxRetries
            (r.1, 2 ^ attempt :: r.2)
      | .netError =>
          if attempt = maxRetries then (.fatalConn, [])
          else
            let r := githubGraphqlGo rest (attempt + 1) maxRetries
            (r.1, 2 ^ attempt :: r.2)

/-- Embedding of _github_graphql with its retry/backoff loop: attempts are
numbered from 1 up to the retry ceiling. -/
def githubGraphql (outcomes : List HttpOutcome) (maxRetries : Nat) :
    GqlOutcome × List Nat :=
  githubGraphqlGo outcomes 1 maxRetries

/-- The MAX_RETRIES constant of the source. -/
def MAX_RETRIES : Nat := 3

/-- The upstream service, from the point of view of one aggregator run:
the script served to the repository-level pagination chain, and the
per-repository scripts served to the branch follow-up chain and to the tag
chain (each chain consumes its script in request order). -/
structure Upstream where
  repoPages : List Page
  branchPages : String → List Page
  tagPages : String → List Page

/-- One GraphQL request issued by an aggregator, identified by the query it
was built from (repository level, per-repository branch refs, or
per-repository tags) and the variables that vary: owner login, repository
name, and after-cursor (Json.null embeds Python None). -/
inductive Call where
  | repos : Json → Call
  | branches : String → String → Json → Call
  | tags : String → String → Json → Call

/-- Whether a call is a per-repository tag fetch for the given name. -/
def Call.isTagFor (nm : String) : Call → Bool
  | .tags _ nm' _ => nm' = nm
  | _ => false

/-- Whether a call is a per-repository branch fetch for the given name. -/
def Call.isBranchFor (nm : String) : Call → Bool
  | .branches _ nm' _ => nm' = nm
  | _ => false

/-- The three mappings built by fetch_repos_full_graphql plus the log of
issued requests, in order. -/
structure FullResult where
  repoMap : List (String × Json)
  branchMap : List (String × List Json)
  tagMap : List (String × List Json)
  calls : List Call

/-- The repository name of a node: repo_node with key name.  A node without
a string name aborts the run (KeyError in the source). -/
def nodeName (node : Json) : Option String :=
  match node.get "name" with
  | some (.str s) => some s
  | _ => none

/-- Branch collection for one repository node: seed with the inline nodes of
the embedded refs connection, then, when its pageInfo reports hasNextPage,
run the pagination engine from the embedded endCursor and append the
follow-up nodes.  Returns the branch list and the issued branch calls. -/
def branchFetch (up : Upstream) (owner nm : String) (node : Json) :
    Option (List Json × List Call) :=
  match node with
  | .obj nfs =>
    match fgetDict nfs "refs" with
    | none => none
    | some refs =>
      match fgetList refs "nodes" with
      | none => none
      | some inline =>
        match fgetDict refs "pageInfo" with
        | none => none
        | some pi =>
          let hasNext := ((fget pi "hasNextPage").getD .null).truthy
          let cur := (fget pi "endCursor").getD .null
          if hasNext then
            let r := fetchPages (up.branchPages nm) cur
            if r.2.2 then some (inline ++ r.1, r.2.1.map (Call.branches owner nm))
            else none
          else some (inline, [])
  | _ => none

/-- Tag collection for one repository node: seed with the inline nodes of
the embedded tags connection; when its pageInfo reports hasNextPage, follow
up from the embedded endCursor; otherwise, when the inline sample is empty,
perform one fresh fetch starting from no cursor. -/
def tagFetch (up : Upstream) (owner nm : String) (node : Json) :
    Option (List Json × List Call) :=
  match node with
  | .obj nfs =>
    match fgetDict nfs "tags" with
    | none => none
    | some tags =>
      match fgetList tags "nodes" with
      | none => none
      | some inline =>
        match fgetDict tags "pageInfo" with
        | none => none
        | some pi =>
          let hasNext := ((fget pi "hasNextPage").getD .null).truthy
          let cur := (fget pi "endCursor").getD .null
          if hasNext then
            let r := fetchPages (up.tagPages nm) cur
            if r.2.2 then some (inline ++ r.1, r.2.1.map (Call.tags owner nm))
            else none
          else if inline.isEmpty then
            let r := fetchPages (up.tagPages nm) .null
            if r.2.2 then some (inline ++ r.1, r.2.1.map (Call.tags owner nm))
            else none
          else some (inline, [])
  | _ => none

/-- Per-repository body of the loop of fetch_repos_full_graphql: store the
node in the repository map, collect branches, and, when tags were requested,
collect tags; record the issued calls in order (branch calls before tag
calls). -/
def processRepoNode (up : Upstream) (owner : String) (includeTags : Bool)
    (acc : FullResult) (node : Json) : Option FullResult :=
  match nodeName node with
  | none => none
  | some nm =>
    match branchFetch up owner nm node with
    | none => none
    | some (bs, bcalls) =>
      if includeTags then
        match tagFetch up owner nm node with
        | none => none
        | some (ts, tcalls) =>
          some ⟨setKey acc.repoMap nm node, setKey acc.branchMap nm bs,
                setKey acc.tagMap nm ts, acc.calls ++ bcalls ++ tcalls⟩
      else
        some ⟨setKey acc.repoMap nm node, setKey acc.branchMap nm bs,
              acc.tagMap, acc.calls ++ bcalls⟩

/-- Post-processing of one stored repository node: when primaryLanguage is
an object carrying a name member, replace the object by that member; leave
the node unchanged otherwise. -/
def normalizePrimaryLanguage (node : Json) : Json :=
  match node.get "primaryLanguage" with
  | some (.obj fs) =>
      match fget fs "name" with
      | some v => node.setField "primaryLanguage" v
      | none => node
  | _ => node

/-- Embedding of fetch_repos_full_graphql: paginate the repository level,
process every repository node in order, then normalize primaryLanguage in
every stored repository record. -/
def fetchReposFullGraphql (up : Upstream) (owner : String) (includeTags : Bool) :
    Option FullResult :=
  let r := fetchPages up.repoPages .null
  if r.2.2 then
    match r.1.foldlM (processRepoNode up owner includeTags)
        ⟨[], [], [], r.2.1.map Call.repos⟩ with
    | none => none
    | some res =>
        some { res with
               repoMap := res.repoMap.map (fun p => (p.1, normalizePrimaryLanguage p.2)) }
  else none

/-- The branch names of one repository node in list_repos_branches_graphql:
inline names first, then, when the embedded connection reports hasNextPage,
the names of the follow-up nodes.  Every ref node is indexed at key name
(KeyError aborts the run). -/
def refNames (refs : List Json) : Option (List String) :=
  refs.mapM (fun r =>
    match r.get "name" with
    | some (.str s) => some s
    | _ => none)

/-- Lexicographic comparison of character lists by code point, the string
ordering Python applies when sorting branch names. -/
def charsLe : List Char → List Char → Bool
  | [], _ => true
  | _ :: _, [] => false
  | c1 :: r1, c2 :: r2 =>
      if c1 < c2 then true
      else if c2 < c1 then false
      else charsLe r1 r2

/-- Lexicographic string comparison by code point. -/
def strLe (a b : String) : Bool := charsLe a.data b.data

/-- Python sorted of the set of a string list: the distinct elements in
ascending lexicographic order. -/
def sortedUnique (l : List String) : List String :=
  List.insertionSort (fun a b => strLe a b = true) l.dedup

/-- Per-repository body of the loop of list_repos_branches_graphql. -/
def processRepoNodeNames (up : Upstream) (owner : String)
    (acc : List (String × List String) × List Call) (node : Json) :
    Option (List (String × List String) × List Call) :=
  match nodeName node with
  | none => none
  | some nm =>
    match node with
    | .obj nfs =>
      match fgetDict nfs "refs" with
      | none => none
      | some refs =>
        match fgetList refs "nodes" with
        | none => none
        | some inline =>
          match refNames inline with
          | none => none
          | some names =>
            match fgetDict refs "pageInfo" with
            | none => none
            | some pi =>
              let hasNext := ((fget pi "hasNextPage").getD .null).truthy
              let cur := (fget pi "endCursor").getD .null
              if hasNext then
                let r := fetchPages (up.branchPages nm) cur
                if r.2.2 then
                  match refNames r.1 with
                  | none => none
                  | some more =>
                      some (setKey acc.1 nm (sortedUnique (names ++ more)),
                            acc.2 ++ r.2.1.map (Call.branches owner nm))
                else none
              else some (setKey acc.1 nm (sortedUnique names), acc.2)
    | _ => none

/-- Embedding of list_repos_branches_graphql: the name-only variant, which
deduplicates and sorts each repository's branch names. -/
def listReposBranchesGraphql (up : Upstream) (owner : String) :
    Option (List (String × List String) × List Call) :=
  let r := fetchPages up.repoPages .null
  if r.2.2 then
    r.1.foldlM (processRepoNodeNames up owner) ([], r.2.1.map Call.repos)
  else none

/-- The transformation setKey applies to the key list of a map. -/
def keyInsert : List String → String → List String
  | [], k => [k]
  | k' :: rest, k => if k' = k then k :: rest else k' :: keyInsert rest k

/-- The page served by an upstream that keeps reporting hasNextPage true
while omitting endCursor entirely. -/
def lostCursorPage : Page := ⟨[], Json.obj [("hasNextPage", Json.bool true)]⟩

/-- The empty aggregation result, used as a default when reading back a
known-successful run. -/
def emptyFull : FullResult := ⟨[], [], [], []⟩

/-- A one-repository upstream whose node carries a primaryLanguage object,
an empty embedded branch connection and no further pages anywhere. -/
def c8Node : Json :=
  .obj [("name", .str "widget"),
        ("primaryLanguage", .obj [("name", .str "Python")]),
        ("refs", .obj [])]

def c8Up : Upstream := ⟨[⟨[c8Node], .obj []⟩], fun _ => [], fun _ => []⟩

/-- The degenerate upstream serving one empty repository page. -/
def up0 : Upstream := ⟨[⟨[], .obj []⟩], fun _ => [], fun _ => []⟩

def c7DevNode : Json := .obj [("name", .str "dev")]

def c7MainNode : Json := .obj [("name", .str "main")]

/-- A repository whose embedded branch names arrive as dev, main, main. -/
def c7RepoNode : Json :=
  .obj [("name", .str "r"),
        ("refs", .obj [("nodes", .arr [c7DevNode, c7MainNode, c7MainNode]),
                       ("pageInfo", .obj [])])]

def c7Up : Upstream := ⟨[⟨[c7RepoNode], .obj []⟩], fun _ => [], fun _ => []⟩

/-- A repository whose embedded branch nodes arrive as main, dev, main. -/
def c7FullNode : Json :=
  .obj [("name", .str "r"),
        ("refs", .obj [("nodes", .arr [c7MainNode, c7DevNode, c7MainNode]),
                       ("pageInfo", .obj [])])]

def c7FullUp : Upstream := ⟨[⟨[c7FullNode], .obj []⟩], fun _ => [], fun _ => []⟩

def c3B1 : Json := .obj [("name", .str "b1")]

def c3B2 : Json := .obj [("name", .str "b2")]

/-- A repository whose embedded branch connection holds one inline node and
reports a further page at cursor C1. -/
def c3Node : Json :=
  .obj [("name", .str "r"),
        ("refs", .obj [("nodes", .arr [c3B1]),
                       ("pageInfo", .obj [("hasNextPage", .bool true),
                                          ("endCursor", .str "C1")])])]

def c3Up : Upstream :=
  ⟨[⟨[c3Node], .obj []⟩], fun _ => [⟨[c3B2], .obj []⟩], fun _ => []⟩

/-- A repository with an empty embedded branch connection and an empty
embedded tag connection, both reporting no further pages. -/
def c4Tag : Json := .obj [("name", .str "v1")]

def c4Node : Json :=
  .obj [("name", .str "r"),
        ("refs", .obj [("nodes", .arr []),
                       ("pageInfo", .obj [("hasNextPage", .bool false)])]),
        ("tags", .obj [("nodes", .arr []),
                       ("pageInfo", .obj [("hasNextPage", .bool false)])])]

def c4Up : Upstream :=
  ⟨[⟨[c4Node], .obj []⟩], fun _ => [], fun _ => [⟨[c4Tag], .obj []⟩]⟩

/-- A branch node carrying a raw commit target, as served upstream. -/
def c1Branch : Json :=
  .obj [("name", .str "main"),
        ("target", .obj [("oid", .str "abc123"),
                         ("messageHeadline", .str "init")])]

/-- A tag node carrying an annotated-tag target wrapping a nested commit. -/
def c1Tag : Json :=
  .obj [("name", .str "v1"),
        ("target", .obj [("oid", .str "t1"), ("message", .str "m1"),
                         ("target", .obj [("oid", .str "t2"),
                                          ("messageHeadline", .str "mh2")])])]

def c1Node : Json :=
  .obj [("name", .str "widget"),
        ("refs", .obj [("nodes", .arr [c1Branch]), ("pageInfo", .obj [])]),
        ("tags", .obj [("nodes", .arr [c1Tag]), ("pageInfo", .obj [])])]

def c1Up : Upstream := ⟨[⟨[c1Node], .obj []⟩], fun _ => [], fun _ => []⟩

/-! Association list lemmas. -/
theorem fget_setKey_self {α : Type} (m : List (String × α)) (k : String) (v : α) :
    fget (setKey m k v) k = some v := by
  induction m with
  | nil => simp [setKey, fget]
  | cons p rest ih =>
      by_cases h : p.1 = k
      · simp [setKey, h, fget]
      · simp [setKey, h, fget, ih]

theorem fget_setKey_ne {α : Type} (m : List (String × α)) (k k' : String) (v : α)
    (h : k' ≠ k) : fget (setKey m k v) k' = fget m k' := by
  induction m with
  | nil => simp [setKey, fget, Ne.symm h]
  | cons p rest ih =>
      by_cases hp : p.1 = k
      · subst hp
        simp [setKey, fget, Ne.symm h, ih]
      · simp [setKey, hp, fget, ih]

theorem keysOf_setKey {α : Type} (m : List (String × α)) (k : String) (v : α) :
    keysOf (setKey m k v) = keyInsert (keysOf m) k := by
  induction m with
  | nil => simp [setKey, keysOf, keyInsert]
  | cons p rest ih =>
      by_cases h : p.1 = k
      · simp [setKey, h, keysOf, keyInsert]
      · simp [setKey, h, keysOf, keyInsert] at ih ⊢
        exact ih

theorem mem_keyInsert (ks : List String) (k x : String) :
    x ∈ keyInsert ks k ↔ x ∈ ks ∨ x = k := by
  induction ks with
  | nil => simp [keyInsert]
  | cons k' rest ih =>
      by_cases h : k' = k
      · subst h
        simp only [keyInsert, if_true, eq_self_iff_true, List.mem_cons]
        tauto
      · simp only [keyInsert, if_neg h, List.mem_cons, ih]
        tauto

theorem nodup_keyInsert (ks : List String) (k : String) (h : ks.Nodup) :
    (keyInsert ks k).Nodup := by
  induction ks with
  | nil => simp [keyInsert]
  | cons k' rest ih =>
      rcases List.nodup_cons.mp h with ⟨hk', hrest⟩
      by_cases hh : k' = k
      · subst hh
        simp only [keyInsert, if_pos rfl]
        exact List.nodup_cons.mpr ⟨hk', hrest⟩
      · simp only [keyInsert, if_neg hh]
        refine List.nodup_cons.mpr ⟨?_, ih hrest⟩
        intro hmem
        rcases (mem_keyInsert rest k k').mp hmem with h1 | h2
        · exact hk' h1
        · exact hh h2

theorem keysOf_map_values {α β : Type} (m : List (String × α)) (f : α → β) :
    keysOf (m.map (fun p => (p.1, f p.2))) = keysOf m := by
  induction m with
  | nil => rfl
  | cons p rest ih =>
      simp only [keysOf, List.map_cons] at ih ⊢
      rw [ih]

theorem fget_map_values {α β : Type} (m : List (String × α)) (f : α → β) (k : String) :
    fget (m.map (fun p => (p.1, f p.2))) k = (fget m k).map f := by
  induction m with
  | nil => rfl
  | cons p rest ih =>
      by_cases h : p.1 = k
      · simp [fget, h]
      · simp [fget, h, ih]

/-! Pagination engine lemmas. -/
theorem fetchPages_cons_continue (p : Page) (rest : List Page) (c : Json)
    (h : p.continues = true) :
    fetchPages (p :: rest) c =
      (p.nodes ++ (fetchPages rest p.nextCursor).1,
       c :: (fetchPages rest p.nextCursor).2.1,
       (fetchPages rest p.nextCursor).2.2) := by
  simp [fetchPages, h]

theorem fetchPages_cons_stop (p : Page) (rest : List Page) (c : Json)
    (h : p.continues = false) :
    fetchPages (p :: rest) c = (p.nodes, [c], true) := by
  simp [fetchPages, h]

/-- The first request of a pagination chain always carries the start
cursor. -/
theorem fetchPages_head_cursor (s : List Page) (c : Json) :
    ∃ cs, (fetchPages s c).2.1 = c :: cs := by
  cases s with
  | nil => exact ⟨[], rfl⟩
  | cons p rest =>
      by_cases h : p.continues = true
      · rw [fetchPages_cons_continue p rest c h]
        exact ⟨(fetchPages rest p.nextCursor).2.1, rfl⟩
      · rw [fetchPages_cons_stop p rest c (by simpa using h)]
        exact ⟨[], rfl⟩

/-- Every node returned by the engine occurs verbatim in one of the served
pages. -/
theorem fetchPages_node_mem (s : List Page) (c : Json) (x : Json)
    (hx : x ∈ (fetchPages s c).1) : x ∈ (s.map Page.nodes).flatten := by
  induction s generalizing c with
  | nil => simp [fetchPages] at hx
  | cons p rest ih =>
      by_cases h : p.continues = true
      · rw [fetchPages_cons_continue p rest c h] at hx
        rcases List.mem_append.mp hx with h1 | h2
        · simp
          exact Or.inl h1
        · simp
          exact Or.inr (by simpa using ih p.nextCursor h2)
      · rw [fetchPages_cons_stop p rest c (by simpa using h)] at hx
        simp
        exact Or.inl hx

/-- Core engine characterization: on a script whose body pages all continue
and whose final page stops, the engine returns the concatenation of all
page nodes, finishes, and issues one request per page; any further scripted
pages are never requested. -/
theorem fetchPages_wellFormed (body : List Page) (last : Page) (c : Json)
    (hbody : ∀ p ∈ body, p.continues = true) (hlast : last.continues = false) :
    (fetchPages (body ++ [last]) c).1 = ((body ++ [last]).map Page.nodes).flatten ∧
    (fetchPages (body ++ [last]) c).2.2 = true ∧
    (fetchPages (body ++ [last]) c).2.1.length = body.length + 1 ∧
    (∀ rest, fetchPages (body ++ last :: rest) c = fetchPages (body ++ [last]) c) := by
  induction body generalizing c with
  | nil =>
      refine ⟨?_, ?_, ?_, ?_⟩ <;>
        simp [fetchPages_cons_stop last _ c hlast]
  | cons p rest ih =>
      have hp : p.continues = true := hbody p (by simp)
      have hrest : ∀ q ∈ rest, q.continues = true := fun q hq => hbody q (by simp [hq])
      rcases ih p.nextCursor hrest with ⟨ih1, ih2, ih3, ih4⟩
      refine ⟨?_, ?_, ?_, ?_⟩
      · rw [List.cons_append, fetchPages_cons_continue p _ c hp]
        simp [ih1]
      · rw [List.cons_append, fetchPages_cons_continue p _ c hp]
        simpa using ih2
      · rw [List.cons_append, fetchPages_cons_continue p _ c hp]
        simpa using ih3
      · intro more
        rw [List.cons_append, fetchPages_cons_continue p _ c hp,
            List.cons_append, fetchPages_cons_continue p _ c hp, ih4 more]

/-- Claim C2: for every pagination script, the engine returns exactly the
concatenation of the fetched pages node lists in fetch order with no
deduplication, terminates as soon as a page reports hasNextPage false or
absent (issuing one request per fetched page and never requesting beyond
the first stopping page), and treats a completely absent (empty) pageInfo
as no more pages, returning after a single request. -/
theorem fetchPaginated_returns_concatenation (body : List Page) (last : Page)
    (c : Json) (hbody : ∀ p ∈ body, p.continues = true)
    (hlast : last.continues = false) :
    (fetchPages (body ++ [last]) c).1 = ((body ++ [last]).map Page.nodes).flatten ∧
    (fetchPages (body ++ [last]) c).2.2 = true ∧
    (fetchPages (body ++ [last]) c).2.1.length = body.length + 1 ∧
    (∀ rest, fetchPages (body ++ last :: rest) c = fetchPages (body ++ [last]) c) ∧
    (∀ (ns : List Json) (rest : List Page) (c' : Json),
       fetchPages (⟨ns, Json.obj []⟩ :: rest) c' = (ns, [c'], true)) :=
  ⟨(fetchPages_wellFormed body last c hbody hlast).1,
   (fetchPages_wellFormed body last c hbody hlast).2.1,
   (fetchPages_wellFormed body last c hbody hlast).2.2.1,
   (fetchPages_wellFormed body last c hbody hlast).2.2.2,
   fun ns rest c' => fetchPages_cons_stop ⟨ns, Json.obj []⟩ rest c' rfl⟩

/-- Witness for claim C2 at a concrete two page script. -/
theorem fetchPaginated_returns_concatenation_witness :
    (fetchPages
      [⟨[Json.str "a"], Json.obj [("hasNextPage", Json.bool true), ("endCursor", Json.str "K")]⟩,
       ⟨[Json.str "b"], Json.obj [("hasNextPage", Json.bool false)]⟩]
      Json.null).1 = [Json.str "a", Json.str "b"] := by
  have h := fetchPaginated_returns_concatenation
    [⟨[Json.str "a"], Json.obj [("hasNextPage", Json.bool true), ("endCursor", Json.str "K")]⟩]
    ⟨[Json.str "b"], Json.obj [("hasNextPage", Json.bool false)]⟩
    Json.null (by intro p hp; simp at hp; subst hp; rfl) rfl
  simpa using h.1

/-- Claim C5 (behaviour at the failing input): when every response reports
hasNextPage true without any endCursor, the engine does not fail fast: after
the first such response it keeps issuing further requests, each with a None
after-cursor (restarting from the first page), and the loop never finishes
on its own (three served responses already draw four requests). -/
theorem fetchPaginated_missing_cursor_keeps_requesting :
    fetchPages [lostCursorPage, lostCursorPage, lostCursorPage] (Json.str "C0") =
      ([], [Json.str "C0", Json.null, Json.null, Json.null], false) := by
  rfl

/-! Transport retry lemmas. -/
theorem githubGraphqlGo_net_step (rest : List HttpOutcome) (a maxR : Nat)
    (h1 : ¬a > maxR) (h2 : ¬a = maxR) :
    githubGraphqlGo (.netError :: rest) a maxR =
      ((githubGraphqlGo rest (a + 1) maxR).1,
       2 ^ a :: (githubGraphqlGo rest (a + 1) maxR).2) := by
  have h : githubGraphqlGo (.netError :: rest) a maxR =
      if a > maxR then (.noMoreAttempts, [])
      else if a = maxR then (.fatalConn, [])
      else ((githubGraphqlGo rest (a + 1) maxR).1,
            2 ^ a :: (githubGraphqlGo rest (a + 1) maxR).2) := rfl
  rw [h, if_neg h1, if_neg h2]

theorem githubGraphqlGo_504_step (rest : List HttpOutcome) (a maxR : Nat)
    (h1 : ¬a > maxR) (h2 : ¬a = maxR) :
    githubGraphqlGo (.httpError 504 :: rest) a maxR =
      ((githubGraphqlGo rest (a + 1) maxR).1,
       2 ^ a :: (githubGraphqlGo rest (a + 1) maxR).2) := by
  have h : githubGraphqlGo (.httpError 504 :: rest) a maxR =
      if a > maxR then (.noMoreAttempts, [])
      else if (504 : Nat) ≠ 504 ∨ a = maxR then (.fatalHttp 504, [])
      else ((githubGraphqlGo rest (a + 1) maxR).1,
            2 ^ a :: (githubGraphqlGo rest (a + 1) maxR).2) := rfl
  rw [h, if_neg h1, if_neg (by simpa using h2)]

theorem githubGraphqlGo_netExhaust (m : Nat) : ∀ a maxR : Nat, 1 ≤ a →
    a + m = maxR →
    githubGraphqlGo (List.replicate (m + 1) HttpOutcome.netError) a maxR =
      (.fatalConn, (List.range m).map (fun i => 2 ^ (a + i))) := by
  induction m with
  | zero =>
      intro a maxR ha hm
      have ha' : a = maxR := by omega
      subst ha'
      simp [githubGraphqlGo]
  | succ m ih =>
      intro a maxR ha hm
      have hle : ¬a > maxR := by omega
      have hne : ¬a = maxR := by omega
      have hfun : ((fun i => 2 ^ (a + i)) ∘ Nat.succ) = (fun i => 2 ^ (a + 1 + i)) := by
        funext i
        simp only [Function.comp_apply]
        congr 1
        omega
      rw [List.replicate_succ, githubGraphqlGo_net_step _ _ _ hle hne,
          ih (a + 1) maxR (by omega) (by omega),
          List.range_succ_eq_map, List.map_cons, List.map_map, hfun]
      simp

theorem githubGraphqlGo_504Exhaust (m : Nat) : ∀ a maxR : Nat, 1 ≤ a →
    a + m = maxR →
    githubGraphqlGo (List.replicate (m + 1) (HttpOutcome.httpError 504)) a maxR =
      (.fatalHttp 504, (List.range m).map (fun i => 2 ^ (a + i))) := by
  induction m with
  | zero =>
      intro a maxR ha hm
      have ha' : a = maxR := by omega
      subst ha'
      simp [githubGraphqlGo]
  | succ m ih =>
      intro a maxR ha hm
      have hle : ¬a > maxR := by omega
      have hne : ¬a = maxR := by omega
      have hfun : ((fun i => 2 ^ (a + i)) ∘ Nat.succ) = (fun i => 2 ^ (a + 1 + i)) := by
        funext i
        simp only [Function.comp_apply]
        congr 1
        omega
      rw [List.replicate_succ, githubGraphqlGo_504_step _ _ _ hle hne,
          ih (a + 1) maxR (by omega) (by omega),
          List.range_succ_eq_map, List.map_cons, List.map_map, hfun]
      simp

/-- Claim C6: the error policy of the transport adapter.  A response body
with a non-empty application-level errors list, or any HTTP error status
other than 504, aborts fatally at once with no retry (no backoff sleep is
performed); a 504, a connection error or a timeout is retried with
exponential backoff (a sleep of 2 to the power of the attempt number after
each failed attempt) and converts to a fatal abort once the attempt ceiling
is exhausted; on success the parsed data payload is returned. -/
theorem githubGraphql_error_policy :
    (∀ (s : Nat) (rest : List HttpOutcome) (maxR : Nat), 1 ≤ maxR → s ≠ 504 →
       githubGraphql (.httpError s :: rest) maxR = (.fatalHttp s, [])) ∧
    (∀ (p : GqlPayload) (rest : List HttpOutcome) (maxR : Nat), 1 ≤ maxR →
       p.errors ≠ [] →
       githubGraphql (.success p :: rest) maxR = (.fatalGqlErrors p.errors, [])) ∧
    (∀ (p : GqlPayload) (rest : List HttpOutcome) (maxR : Nat), 1 ≤ maxR →
       p.errors = [] →
       githubGraphql (.success p :: rest) maxR = (.ok (p.data.getD (.obj [])), [])) ∧
    (∀ maxR : Nat, 1 ≤ maxR →
       githubGraphql (List.replicate maxR HttpOutcome.netError) maxR =
         (.fatalConn, (List.range (maxR - 1)).map (fun i => 2 ^ (1 + i)))) ∧
    (∀ maxR : Nat, 1 ≤ maxR →
       githubGraphql (List.replicate maxR (HttpOutcome.httpError 504)) maxR =
         (.fatalHttp 504, (List.range (maxR - 1)).map (fun i => 2 ^ (1 + i)))) ∧
    (∀ (o : HttpOutcome) (rest : List HttpOutcome) (maxR : Nat), 2 ≤ maxR →
       (o = .netError ∨ o = .httpError 504) →
       githubGraphql (o :: rest) maxR =
         ((githubGraphqlGo rest 2 maxR).1, 2 :: (githubGraphqlGo rest 2 maxR).2)) := by
  refine ⟨?_, ?_, ?_, ?_, ?_, ?_⟩
  · intro s rest maxR h1 hs
    have hle : ¬1 > maxR := by omega
    simp [githubGraphql, githubGraphqlGo, hle, hs]
  · intro p rest maxR h1 he
    have hle : ¬1 > maxR := by omega
    have he' : ¬p.errors.isEmpty := by simpa [List.isEmpty_iff] using he
    simp [githubGraphql, githubGraphqlGo, hle, he']
  · intro p rest maxR h1 he
    have hle : ¬1 > maxR := by omega
    have he' : p.errors.isEmpty := by simpa [List.isEmpty_iff] using he
    simp [githubGraphql, githubGraphqlGo, hle, he']
  · intro maxR h1
    have hrep : List.replicate maxR HttpOutcome.netError =
        List.replicate ((maxR - 1) + 1) HttpOutcome.netError := by
      congr 1
      omega
    rw [githubGraphql, hrep, githubGraphqlGo_netExhaust (maxR - 1) 1 maxR (by omega) (by omega)]
  · intro maxR h1
    have hrep : List.replicate maxR (HttpOutcome.httpError 504) =
        List.replicate ((maxR - 1) + 1) (HttpOutcome.httpError 504) := by
      congr 1
      omega
    rw [githubGraphql, hrep, githubGraphqlGo_504Exhaust (maxR - 1) 1 maxR (by omega) (by omega)]
  · intro o rest maxR h2 ho
    have hle : ¬1 > maxR := by omega
    have hne : ¬(1 : Nat) = maxR := by omega
    rcases ho with ho | ho
    · subst ho
      simp [githubGraphql, githubGraphqlGo, hle, hne]
    · subst ho
      have hcond : ¬(504 ≠ 504 ∨ (1 : Nat) = maxR) := by
        push_neg
        exact ⟨rfl, hne⟩
      simp [githubGraphql, githubGraphqlGo, hle, hne, hcond]

/-- Witness for claim C6: concrete instances of each arm of the policy at
the MAX_RETRIES ceiling of the source. -/
theorem githubGraphql_error_policy_witness :
    githubGraphql [.httpError 404] MAX_RETRIES = (.fatalHttp 404, []) ∧
    githubGraphql [.success ⟨[Json.str "boom"], some Json.null⟩] MAX_RETRIES =
      (.fatalGqlErrors [Json.str "boom"], []) ∧
    githubGraphql [.success ⟨[], some (Json.str "payload")⟩] MAX_RETRIES =
      (.ok (Json.str "payload"), []) ∧
    githubGraphql (List.replicate MAX_RETRIES HttpOutcome.netError) MAX_RETRIES =
      (.fatalConn, [2, 4]) ∧
    githubGraphql (List.replicate MAX_RETRIES (HttpOutcome.httpError 504)) MAX_RETRIES =
      (.fatalHttp 504, [2, 4]) := by
  refine ⟨?_, ?_, ?_, ?_, ?_⟩
  · exact githubGraphql_error_policy.1 404 [] MAX_RETRIES (by decide) (by decide)
  · exact githubGraphql_error_policy.2.1 ⟨[Json.str "boom"], some Json.null⟩ [] MAX_RETRIES
      (by decide) (by simp)
  · exact githubGraphql_error_policy.2.2.1 ⟨[], some (Json.str "payload")⟩ [] MAX_RETRIES
      (by decide) rfl
  · have h := githubGraphql_error_policy.2.2.2.1 MAX_RETRIES (by decide)
    simpa [MAX_RETRIES] using h
  · have h := githubGraphql_error_policy.2.2.2.2.1 MAX_RETRIES (by decide)
    simpa [MAX_RETRIES] using h

/-! Aggregator fold machinery. -/
theorem foldlM_ind {σ α : Type} (f : σ → α → Option σ) (P : σ → Prop)
    (hstep : ∀ a n r, f a n = some r → P a → P r) :
    ∀ (l : List α) (a r : σ), l.foldlM f a = some r → P a → P r := by
  intro l
  induction l with
  | nil =>
      intro a r h hp
      simp only [List.foldlM_nil] at h
      cases h
      exact hp
  | cons x xs ih =>
      intro a r h hp
      rw [List.foldlM_cons] at h
      cases hx : f a x with
      | none =>
          rw [hx] at h
          cases h
      | some a1 =>
          rw [hx] at h
          exact ih a1 r h (hstep a x a1 hx hp)

theorem foldlM_cons_inv {σ α : Type} (f : σ → α → Option σ) (x : α) (xs : List α)
    (a r : σ) (h : (x :: xs).foldlM f a = some r) :
    ∃ a1, f a x = some a1 ∧ xs.foldlM f a1 = some r := by
  rw [List.foldlM_cons] at h
  cases hx : f a x with
  | none =>
      rw [hx] at h
      cases h
  | some a1 =>
      rw [hx] at h
      exact ⟨a1, rfl, h⟩

theorem mapM_cons_inv {α β : Type} (f : α → Option β) (x : α) (xs : List α)
    (ys : List β) (h : (x :: xs).mapM f = some ys) :
    ∃ y ys', f x = some y ∧ xs.mapM f = some ys' ∧ ys = y :: ys' := by
  rw [List.mapM_cons] at h
  cases hx : f x with
  | none =>
      rw [hx] at h
      cases h
  | some y =>
      rw [hx] at h
      cases hxs : xs.mapM f with
      | none =>
          rw [hxs] at h
          cases h
      | some ys' =>
          rw [hxs] at h
          have h' : y :: ys' = ys := Option.some.inj h
          exact ⟨y, ys', rfl, rfl, h'.symm⟩

theorem mapM_mem_image {α β : Type} (f : α → Option β) :
    ∀ (l : List α) (ys : List β) (x : α) (y : β),
    l.mapM f = some ys → x ∈ l → f x = some y → y ∈ ys := by
  intro l
  induction l with
  | nil => intro ys x y _ hx; cases hx
  | cons a as ih =>
      intro ys x y h hx hy
      rcases mapM_cons_inv f a as ys h with ⟨b, bs, hb, hbs, rfl⟩
      rcases List.mem_cons.mp hx with rfl | hx'
      · rw [hy] at hb
        cases hb
        exact List.mem_cons_self _ _
      · exact List.mem_cons_of_mem _ (ih bs x y hbs hx' hy)

/-- Every request issued by a successful branch follow-up is a branch call
scoped to the repository it was built for. -/
theorem branchFetch_calls_shape (up : Upstream) (o nm : String) (node : Json)
    (bs : List Json) (bc : List Call) (h : branchFetch up o nm node = some (bs, bc)) :
    ∀ cl ∈ bc, ∃ cur, cl = Call.branches o nm cur := by
  cases node with
  | obj nfs =>
      simp only [branchFetch] at h
      cases hr : fgetDict nfs "refs" with
      | none =>
          rw [hr] at h
          cases h
      | some refs =>
          rw [hr] at h
          dsimp only at h
          cases hn : fgetList refs "nodes" with
          | none =>
              rw [hn] at h
              cases h
          | some inline =>
              rw [hn] at h
              dsimp only at h
              cases hp : fgetDict refs "pageInfo" with
              | none =>
                  rw [hp] at h
                  cases h
              | some pifs =>
                  rw [hp] at h
                  dsimp only at h
                  by_cases hnext : (((fget pifs "hasNextPage").getD .null).truthy : Bool)
                  · rw [if_pos hnext] at h
                    by_cases hfin :
                        ((fetchPages (up.branchPages nm)
                          ((fget pifs "endCursor").getD .null)).2.2 : Bool)
                    · rw [if_pos hfin] at h
                      injection h with h'
                      have hbc : bc = (fetchPages (up.branchPages nm)
                          ((fget pifs "endCursor").getD .null)).2.1.map
                            (Call.branches o nm) := (congrArg Prod.snd h').symm
                      intro cl hcl
                      rw [hbc] at hcl
                      rcases List.mem_map.mp hcl with ⟨cur, _, hcur⟩
                      exact ⟨cur, hcur.symm⟩
                    · rw [if_neg hfin] at h
                      cases h
                  · rw [if_neg hnext] at h
                    injection h with h'
                    have hbc : bc = [] := (congrArg Prod.snd h').symm
                    intro cl hcl
                    rw [hbc] at hcl
                    cases hcl
  | null => cases h
  | bool b => cases h
  | num n => cases h
  | str s => cases h
  | arr xs => cases h

/-- Every request issued by a successful tag collection is a tag call scoped
to the repository it was built for. -/
theorem tagFetch_calls_shape (up : Upstream) (o nm : String) (node : Json)
    (ts : List Json) (tc : List Call) (h : tagFetch up o nm node = some (ts, tc)) :
    ∀ cl ∈ tc, ∃ cur, cl = Call.tags o nm cur := by
  cases node with
  | obj nfs =>
      simp only [tagFetch] at h
      cases hr : fgetDict nfs "tags" with
      | none =>
          rw [hr] at h
          cases h
      | some tags =>
          rw [hr] at h
          dsimp only at h
          cases hn : fgetList tags "nodes" with
          | none =>
              rw [hn] at h
              cases h
          | some inline =>
              rw [hn] at h
              dsimp only at h
              cases hp : fgetDict tags "pageInfo" with
              | none =>
                  rw [hp] at h
                  cases h
              | some pifs =>
                  rw [hp] at h
                  dsimp only at h
                  by_cases hnext : (((fget pifs "hasNextPage").getD .null).truthy : Bool)
                  · rw [if_pos hnext] at h
                    by_cases hfin :
                        ((fetchPages (up.tagPages nm)
                          ((fget pifs "endCursor").getD .null)).2.2 : Bool)
                    · rw [if_pos hfin] at h
                      injection h with h'
                      have htc : tc = (fetchPages (up.tagPages nm)
                          ((fget pifs "endCursor").getD .null)).2.1.map
                            (Call.tags o nm) := (congrArg Prod.snd h').symm
                      intro cl hcl
                      rw [htc] at hcl
                      rcases List.mem_map.mp hcl with ⟨cur, _, hcur⟩
                      exact ⟨cur, hcur.symm⟩
                    · rw [if_neg hfin] at h
                      cases h
                  · rw [if_neg hnext] at h
                    by_cases hemp : inline.isEmpty
                    · rw [if_pos hemp] at h
                      by_cases hfin :
                          ((fetchPages (up.tagPages nm) .null).2.2 : Bool)
                      · rw [if_pos hfin] at h
                        injection h with h'
                        have htc : tc = (fetchPages (up.tagPages nm) .null).2.1.map
                            (Call.tags o nm) := (congrArg Prod.snd h').symm
                        intro cl hcl
                        rw [htc] at hcl
                        rcases List.mem_map.mp hcl with ⟨cur, _, hcur⟩
                        exact ⟨cur, hcur.symm⟩
                      · rw [if_neg hfin] at h
                        cases h
                    · rw [if_neg hemp] at h
                      injection h with h'
                      have htc : tc = [] := (congrArg Prod.snd h').symm
                      intro cl hcl
                      rw [htc] at hcl
                      cases hcl
  | null => cases h
  | bool b => cases h
  | num n => cases h
  | str s => cases h
  | arr xs => cases h

/-- Inversion of one loop iteration of the full aggregator. -/
theorem processRepoNode_inv (up : Upstream) (o : String) (it : Bool)
    (acc : FullResult) (node : Json) (r : FullResult)
    (h : processRepoNode up o it acc node = some r) :
    ∃ nm bs bc, nodeName node = some nm ∧ branchFetch up o nm node = some (bs, bc) ∧
      r.repoMap = setKey acc.repoMap nm node ∧
      r.branchMap = setKey acc.branchMap nm bs ∧
      ((∃ ts tc, it = true ∧ tagFetch up o nm node = some (ts, tc) ∧
          r.tagMap = setKey acc.tagMap nm ts ∧ r.calls = acc.calls ++ bc ++ tc) ∨
       (it = false ∧ r.tagMap = acc.tagMap ∧ r.calls = acc.calls ++ bc)) := by
  simp only [processRepoNode] at h
  cases hnm : nodeName node with
  | none =>
      rw [hnm] at h
      cases h
  | some nm =>
      rw [hnm] at h
      dsimp only at h
      cases hbf : branchFetch up o nm node with
      | none =>
          rw [hbf] at h
          cases h
      | some p =>
          rw [hbf] at h
          dsimp only at h
          obtain ⟨bs, bc⟩ := p
          dsimp only at h
          cases it with
          | true =>
              rw [if_pos rfl] at h
              cases htf : tagFetch up o nm node with
              | none =>
                  rw [htf] at h
                  cases h
              | some q =>
                  rw [htf] at h
                  dsimp only at h
                  obtain ⟨ts, tc⟩ := q
                  dsimp only at h
                  have h' := Option.some.inj h
                  subst h'
                  exact ⟨nm, bs, bc, rfl, hbf, rfl, rfl,
                         Or.inl ⟨ts, tc, rfl, htf, rfl, rfl⟩⟩
          | false =>
              rw [if_neg Bool.false_ne_true] at h
              have h' := Option.some.inj h
              subst h'
              exact ⟨nm, bs, bc, rfl, hbf, rfl, rfl, Or.inr ⟨rfl, rfl, rfl⟩⟩

theorem filter_eq_nil_of {α : Type} (p : α → Bool) (l : List α)
    (h : ∀ a ∈ l, p a = false) : l.filter p = [] := by
  induction l with
  | nil => rfl
  | cons a as ih =>
      simp [List.filter_cons, h a (by simp),
            ih (fun b hb => h b (by simp [hb]))]

theorem filter_eq_self_of {α : Type} (p : α → Bool) (l : List α)
    (h : ∀ a ∈ l, p a = true) : l.filter p = l := by
  induction l with
  | nil => rfl
  | cons a as ih =>
      simp [List.filter_cons, h a (by simp),
            ih (fun b hb => h b (by simp [hb]))]

/-- Repository nodes whose names all differ from a given name never touch
that name in any accumulator map, nor add calls scoped to it. -/
theorem fold_preserve (up : Upstream) (o : String) (it : Bool) (nm : String) :
    ∀ (l : List Json) (acc r : FullResult),
    (∀ x ∈ l, ∀ s, nodeName x = some s → s ≠ nm) →
    l.foldlM (processRepoNode up o it) acc = some r →
    fget r.repoMap nm = fget acc.repoMap nm ∧
    fget r.branchMap nm = fget acc.branchMap nm ∧
    fget r.tagMap nm = fget acc.tagMap nm ∧
    r.calls.filter (Call.isTagFor nm) = acc.calls.filter (Call.isTagFor nm) ∧
    r.calls.filter (Call.isBranchFor nm) = acc.calls.filter (Call.isBranchFor nm) := by
  intro l
  induction l with
  | nil =>
      intro acc r _ h
      simp only [List.foldlM_nil] at h
      cases h
      exact ⟨rfl, rfl, rfl, rfl, rfl⟩
  | cons x xs ih =>
      intro acc r hnames h
      rcases foldlM_cons_inv _ x xs acc r h with ⟨a1, hx, hrest⟩
      rcases processRepoNode_inv up o it acc x a1 hx with
        ⟨s, bs, bc, hs, hbf, hrm, hbm, hro⟩
      have hsne : s ≠ nm := hnames x (by simp) s hs
      have hxs : ∀ y ∈ xs, ∀ t, nodeName y = some t → t ≠ nm :=
        fun y hy => hnames y (by simp [hy])
      rcases ih a1 r hxs hrest with ⟨ih1, ih2, ih3, ih4, ih5⟩
      have hbcShape := branchFetch_calls_shape up o s x bs bc hbf
      have hbcT : bc.filter (Call.isTagFor nm) = [] := by
        apply filter_eq_nil_of
        intro cl hcl
        rcases hbcShape cl hcl with ⟨cur, rfl⟩
        rfl
      have hbcB : bc.filter (Call.isBranchFor nm) = [] := by
        apply filter_eq_nil_of
        intro cl hcl
        rcases hbcShape cl hcl with ⟨cur, rfl⟩
        simp [Call.isBranchFor, hsne]
      rcases hro with ⟨ts, tc, hit, htf, htm, hcalls⟩ | ⟨hit, htm, hcalls⟩
      · have htcShape := tagFetch_calls_shape up o s x ts tc htf
        have htcT : tc.filter (Call.isTagFor nm) = [] := by
          apply filter_eq_nil_of
          intro cl hcl
          rcases htcShape cl hcl with ⟨cur, rfl⟩
          simp [Call.isTagFor, hsne]
        have htcB : tc.filter (Call.isBranchFor nm) = [] := by
          apply filter_eq_nil_of
          intro cl hcl
          rcases htcShape cl hcl with ⟨cur, rfl⟩
          rfl
        refine ⟨?_, ?_, ?_, ?_, ?_⟩
        · rw [ih1, hrm, fget_setKey_ne _ _ _ _ (Ne.symm hsne)]
        · rw [ih2, hbm, fget_setKey_ne _ _ _ _ (Ne.symm hsne)]
        · rw [ih3, htm, fget_setKey_ne _ _ _ _ (Ne.symm hsne)]
        · rw [ih4, hcalls, List.filter_append, List.filter_append, hbcT, htcT,
              List.append_nil, List.append_nil]
        · rw [ih5, hcalls, List.filter_append, List.filter_append, hbcB, htcB,
              List.append_nil, List.append_nil]
      · refine ⟨?_, ?_, ?_, ?_, ?_⟩
        · rw [ih1, hrm, fget_setKey_ne _ _ _ _ (Ne.symm hsne)]
        · rw [ih2, hbm, fget_setKey_ne _ _ _ _ (Ne.symm hsne)]
        · rw [ih3, htm]
        · rw [ih4, hcalls, List.filter_append, hbcT, List.append_nil]
        · rw [ih5, hcalls, List.filter_append, hbcB, List.append_nil]

theorem fold_step_success {σ α : Type} (f : σ → α → Option σ) :
    ∀ (l : List α) (a r : σ) (x : α), l.foldlM f a = some r → x ∈ l →
    ∃ a1 r1, f a1 x = some r1 := by
  intro l
  induction l with
  | nil =>
      intro a r x _ hx
      cases hx
  | cons y ys ih =>
      intro a r x h hx
      rcases foldlM_cons_inv f y ys a r h with ⟨a1, hy, hrest⟩
      rcases List.mem_cons.mp hx with rfl | hx'
      · exact ⟨a, a1, hy⟩
      · exact ih a1 r x hrest hx'

theorem filter_isTagFor_repos (nm : String) (cs : List Json) :
    (cs.map Call.repos).filter (Call.isTagFor nm) = [] := by
  apply filter_eq_nil_of
  intro a ha
  rcases List.mem_map.mp ha with ⟨c, _, rfl⟩
  rfl

theorem filter_isBranchFor_repos (nm : String) (cs : List Json) :
    (cs.map Call.repos).filter (Call.isBranchFor nm) = [] := by
  apply filter_eq_nil_of
  intro a ha
  rcases List.mem_map.mp ha with ⟨c, _, rfl⟩
  rfl

/-- The central bookkeeping lemma: in a successful aggregation fold over
repository nodes with pairwise distinct names, the maps at the name of any
processed node hold exactly the data computed for that node, and the calls
scoped to that name are exactly the calls its processing issued. -/
theorem fold_lookup (up : Upstream) (o : String) (it : Bool)
    (node : Json) (nm : String) (bs : List Json) (bc : List Call) :
    ∀ (l : List Json) (nms : List String) (acc r : FullResult),
    l.mapM nodeName = some nms → nms.Nodup →
    node ∈ l → nodeName node = some nm →
    branchFetch up o nm node = some (bs, bc) →
    l.foldlM (processRepoNode up o it) acc = some r →
    fget r.repoMap nm = some node ∧
    fget r.branchMap nm = some bs ∧
    r.calls.filter (Call.isBranchFor nm) =
      acc.calls.filter (Call.isBranchFor nm) ++ bc ∧
    (∀ ts tc, it = true → tagFetch up o nm node = some (ts, tc) →
       fget r.tagMap nm = some ts ∧
       r.calls.filter (Call.isTagFor nm) =
         acc.calls.filter (Call.isTagFor nm) ++ tc) := by
  intro l
  induction l with
  | nil =>
      intro nms acc r _ _ hmem
      cases hmem
  | cons x xs ih =>
      intro nms acc r hmapM hnodup hmem hnm hbf hfold
      rcases mapM_cons_inv nodeName x xs nms hmapM with ⟨s, nms', hsx, hmapM', rfl⟩
      rcases List.nodup_cons.mp hnodup with ⟨hsnot, hnodup'⟩
      rcases foldlM_cons_inv _ x xs acc r hfold with ⟨a1, hx, hrest⟩
      rcases processRepoNode_inv up o it acc x a1 hx with
        ⟨s0, bs0, bc0, hs0, hbf0, hrm, hbm, hro⟩
      have hs0s : s0 = s := by
        rw [hsx] at hs0
        exact (Option.some.inj hs0).symm
      rw [hs0s] at hbf0 hrm hbm hro
      rcases List.mem_cons.mp hmem with rfl | hmem'
      · -- the node at hand is the head of the list
        have hsnm : s = nm := by
          rw [hsx] at hnm
          exact Option.some.inj hnm
        rw [hsnm] at hbf0 hrm hbm hro hsnot
        have hbseq : bs0 = bs ∧ bc0 = bc := by
          rw [hbf] at hbf0
          have heq := Option.some.inj hbf0
          exact ⟨(congrArg Prod.fst heq).symm, (congrArg Prod.snd heq).symm⟩
        rcases hbseq with ⟨rfl, rfl⟩
        have hxs : ∀ y ∈ xs, ∀ t, nodeName y = some t → t ≠ nm := by
          intro y hy t ht hcontra
          subst hcontra
          exact hsnot (mapM_mem_image nodeName xs nms' y t hmapM' hy ht)
        rcases fold_preserve up o it nm xs a1 r hxs hrest with
          ⟨pr1, pr2, pr3, pr4, pr5⟩
        have hbcShape := branchFetch_calls_shape up o nm node bs0 bc0 hbf0
        have hbcB : bc0.filter (Call.isBranchFor nm) = bc0 := by
          apply filter_eq_self_of
          intro cl hcl
          rcases hbcShape cl hcl with ⟨cur, rfl⟩
          simp [Call.isBranchFor]
        have hbcT : bc0.filter (Call.isTagFor nm) = [] := by
          apply filter_eq_nil_of
          intro cl hcl
          rcases hbcShape cl hcl with ⟨cur, rfl⟩
          rfl
        refine ⟨?_, ?_, ?_, ?_⟩
        · rw [pr1, hrm, fget_setKey_self]
        · rw [pr2, hbm, fget_setKey_self]
        · rcases hro with ⟨ts, tc, hit, htf, htm, hcalls⟩ | ⟨hit, htm, hcalls⟩
          · have htcShape := tagFetch_calls_shape up o nm node ts tc htf
            have htcB : tc.filter (Call.isBranchFor nm) = [] := by
              apply filter_eq_nil_of
              intro cl hcl
              rcases htcShape cl hcl with ⟨cur, rfl⟩
              rfl
            rw [pr5, hcalls, List.filter_append, List.filter_append, hbcB, htcB,
                List.append_nil]
          · rw [pr5, hcalls, List.filter_append, hbcB]
        · intro ts tc hit htf
          rcases hro with ⟨ts0, tc0, _, htf0, htm, hcalls⟩ | ⟨hit0, _, _⟩
          · have hteq : ts0 = ts ∧ tc0 = tc := by
              rw [htf] at htf0
              have heq := Option.some.inj htf0
              exact ⟨(congrArg Prod.fst heq).symm, (congrArg Prod.snd heq).symm⟩
            rcases hteq with ⟨rfl, rfl⟩
            have htcShape := tagFetch_calls_shape up o nm node ts0 tc0 htf0
            have htcT : tc0.filter (Call.isTagFor nm) = tc0 := by
              apply filter_eq_self_of
              intro cl hcl
              rcases htcShape cl hcl with ⟨cur, rfl⟩
              simp [Call.isTagFor]
            constructor
            · rw [pr3, htm, fget_setKey_self]
            · rw [pr4, hcalls, List.filter_append, List.filter_append, hbcT, htcT]
              simp
          · rw [hit] at hit0
            cases hit0
      · -- the node at hand lies further down the list
        have hnmem : nm ∈ nms' := mapM_mem_image nodeName xs nms' node nm hmapM' hmem' hnm
        have hsne : s ≠ nm := fun hcontra => hsnot (hcontra ▸ hnmem)
        have hbcShape := branchFetch_calls_shape up o s x bs0 bc0 hbf0
        have hbcB : bc0.filter (Call.isBranchFor nm) = [] := by
          apply filter_eq_nil_of
          intro cl hcl
          rcases hbcShape cl hcl with ⟨cur, rfl⟩
          simp [Call.isBranchFor, hsne]
        have hbcT : bc0.filter (Call.isTagFor nm) = [] := by
          apply filter_eq_nil_of
          intro cl hcl
          rcases hbcShape cl hcl with ⟨cur, rfl⟩
          rfl
        have hcallsFilters : a1.calls.filter (Call.isBranchFor nm) =
            acc.calls.filter (Call.isBranchFor nm) ∧
            a1.calls.filter (Call.isTagFor nm) =
              acc.calls.filter (Call.isTagFor nm) := by
          rcases hro with ⟨ts0, tc0, _, htf0, _, hcalls⟩ | ⟨_, _, hcalls⟩
          · have htcShape := tagFetch_calls_shape up o s x ts0 tc0 htf0
            have htcB : tc0.filter (Call.isBranchFor nm) = [] := by
              apply filter_eq_nil_of
              intro cl hcl
              rcases htcShape cl hcl with ⟨cur, rfl⟩
              rfl
            have htcT : tc0.filter (Call.isTagFor nm) = [] := by
              apply filter_eq_nil_of
              intro cl hcl
              rcases htcShape cl hcl with ⟨cur, rfl⟩
              simp [Call.isTagFor, hsne]
            constructor
            · rw [hcalls, List.filter_append, List.filter_append, hbcB, htcB,
                  List.append_nil, List.append_nil]
            · rw [hcalls, List.filter_append, List.filter_append, hbcT, htcT,
                  List.append_nil, List.append_nil]
          · constructor
            · rw [hcalls, List.filter_append, hbcB, List.append_nil]
            · rw [hcalls, List.filter_append, hbcT, List.append_nil]
        rcases ih nms' a1 r hmapM' hnodup' hmem' hnm hbf hrest with
          ⟨ih1, ih2, ih3, ih4⟩
        refine ⟨ih1, ih2, ?_, ?_⟩
        · rw [ih3, hcallsFilters.1]
        · intro ts tc hit htf
          rcases ih4 ts tc hit htf with ⟨ih5, ih6⟩
          exact ⟨ih5, by rw [ih6, hcallsFilters.2]⟩

/-- Unfolding of a successful run of the full aggregator into its engine
stage, its fold stage and its final primaryLanguage pass. -/
theorem fetchReposFullGraphql_inv (up : Upstream) (o : String) (it : Bool)
    (res : FullResult) (h : fetchReposFullGraphql up o it = some res) :
    ∃ r0 : FullResult,
      (fetchPages up.repoPages .null).2.2 = true ∧
      (fetchPages up.repoPages .null).1.foldlM (processRepoNode up o it)
        ⟨[], [], [], (fetchPages up.repoPages .null).2.1.map Call.repos⟩ = some r0 ∧
      res.repoMap = r0.repoMap.map (fun p => (p.1, normalizePrimaryLanguage p.2)) ∧
      res.branchMap = r0.branchMap ∧ res.tagMap = r0.tagMap ∧
      res.calls = r0.calls := by
  simp only [fetchReposFullGraphql] at h
  by_cases hfin : ((fetchPages up.repoPages .null).2.2 : Bool)
  · rw [if_pos hfin] at h
    cases hf : (fetchPages up.repoPages .null).1.foldlM (processRepoNode up o it)
        ⟨[], [], [], (fetchPages up.repoPages .null).2.1.map Call.repos⟩ with
    | none =>
        rw [hf] at h
        cases h
    | some r0 =>
        rw [hf] at h
        dsimp only at h
        have h' := Option.some.inj h
        subst h'
        exact ⟨r0, hfin, rfl, rfl, rfl, rfl, rfl⟩
  · rw [if_neg hfin] at h
    cases h

theorem get_setField_self (j : Json) (k : String) (v w : Json)
    (h : j.get k = some w) : (j.setField k v).get k = some v := by
  cases j with
  | obj fs => simp [Json.setField, Json.get, fget_setKey_self]
  | null => cases h
  | bool b => cases h
  | num n => cases h
  | str s => cases h
  | arr xs => cases h

theorem get_setField_ne (j : Json) (k k' : String) (v : Json) (h : k' ≠ k) :
    (j.setField k v).get k' = j.get k' := by
  cases j with
  | obj fs => simp [Json.setField, Json.get, fget_setKey_ne _ _ _ _ h]
  | null => rfl
  | bool b => rfl
  | num n => rfl
  | str s => rfl
  | arr xs => rfl

theorem normalizePrimaryLanguage_obj (j : Json) (fs : List (String × Json))
    (v : Json) (h : j.get "primaryLanguage" = some (.obj fs))
    (hv : fget fs "name" = some v) :
    normalizePrimaryLanguage j = j.setField "primaryLanguage" v := by
  rw [normalizePrimaryLanguage, h]
  dsimp only
  rw [hv]

theorem normalizePrimaryLanguage_id (j : Json)
    (h : j.get "primaryLanguage" = none ∨ j.get "primaryLanguage" = some .null ∨
         ∃ s, j.get "primaryLanguage" = some (.str s)) :
    normalizePrimaryLanguage j = j := by
  rcases h with h | h | ⟨s, h⟩ <;> rw [normalizePrimaryLanguage, h]

/-- With tag inclusion switched off the aggregation fold never touches the
tag map. -/
theorem fold_tagMap_const (up : Upstream) (o : String) (l : List Json)
    (acc r : FullResult) (h : l.foldlM (processRepoNode up o false) acc = some r) :
    r.tagMap = acc.tagMap := by
  refine foldlM_ind (processRepoNode up o false)
    (fun st => st.tagMap = acc.tagMap) ?_ l acc r h rfl
  intro a n r1 hstep hp
  rcases processRepoNode_inv up o false a n r1 hstep with
    ⟨nm, bs, bc, _, _, _, _, hro⟩
  rcases hro with ⟨_, _, hit, _⟩ | ⟨_, htm, _⟩
  · cases hit
  · rw [htm, hp]

/-- Inversion of one loop iteration of the name-only variant: it stores a
deduplicated and sorted name list for some repository. -/
theorem processRepoNodeNames_inv (up : Upstream) (o : String)
    (acc r : List (String × List String) × List Call) (node : Json)
    (h : processRepoNodeNames up o acc node = some r) :
    ∃ nm names, r.1 = setKey acc.1 nm (sortedUnique names) := by
  simp only [processRepoNodeNames] at h
  cases hnm : nodeName node with
  | none =>
      rw [hnm] at h
      cases h
  | some nm =>
      rw [hnm] at h
      dsimp only at h
      cases node with
      | obj nfs =>
          dsimp only at h
          cases hr : fgetDict nfs "refs" with
          | none =>
              rw [hr] at h
              cases h
          | some refs =>
              rw [hr] at h
              dsimp only at h
              cases hn : fgetList refs "nodes" with
              | none =>
                  rw [hn] at h
                  cases h
              | some inline =>
                  rw [hn] at h
                  dsimp only at h
                  cases hrn : refNames inline with
                  | none =>
                      rw [hrn] at h
                      cases h
                  | some names =>
                      rw [hrn] at h
                      dsimp only at h
                      cases hp : fgetDict refs "pageInfo" with
                      | none =>
                          rw [hp] at h
                          cases h
                      | some pifs =>
                          rw [hp] at h
                          dsimp only at h
                          by_cases hnext :
                              (((fget pifs "hasNextPage").getD .null).truthy : Bool)
                          · rw [if_pos hnext] at h
                            by_cases hfin :
                                ((fetchPages (up.branchPages nm)
                                  ((fget pifs "endCursor").getD .null)).2.2 : Bool)
                            · rw [if_pos hfin] at h
                              cases hmore : refNames (fetchPages (up.branchPages nm)
                                  ((fget pifs "endCursor").getD .null)).1 with
                              | none =>
                                  rw [hmore] at h
                                  cases h
                              | some more =>
                                  rw [hmore] at h
                                  dsimp only at h
                                  have h' := Option.some.inj h
                                  exact ⟨nm, names ++ more,
                                         by rw [← h']⟩
                            · rw [if_neg hfin] at h
                              cases h
                          · rw [if_neg hnext] at h
                            have h' := Option.some.inj h
                            exact ⟨nm, names, by rw [← h']⟩
      | null => cases h
      | bool b => cases h
      | num n => cases h
      | str s => cases h
      | arr xs => cases h

/-- Unfolding of a successful run of the name-only variant. -/
theorem listReposBranchesGraphql_inv (up : Upstream) (o : String)
    (res : List (String × List String) × List Call)
    (h : listReposBranchesGraphql up o = some res) :
    (fetchPages up.repoPages .null).2.2 = true ∧
    (fetchPages up.repoPages .null).1.foldlM (processRepoNodeNames up o)
      ([], (fetchPages up.repoPages .null).2.1.map Call.repos) = some res := by
  simp only [listReposBranchesGraphql] at h
  by_cases hfin : ((fetchPages up.repoPages .null).2.2 : Bool)
  · rw [if_pos hfin] at h
    exact ⟨hfin, h⟩
  · rw [if_neg hfin] at h
    cases h

theorem fget_setKey_cases {α : Type} (m : List (String × α)) (k k' : String)
    (v l : α) (h : fget (setKey m k v) k' = some l) : l = v ∨ fget m k' = some l := by
  by_cases hk : k' = k
  · subst hk
    rw [fget_setKey_self] at h
    exact Or.inl (Option.some.inj h).symm
  · rw [fget_setKey_ne _ _ _ _ hk] at h
    exact Or.inr h

theorem charsLe_total : ∀ a b, charsLe a b = true ∨ charsLe b a = true := by
  intro a
  induction a with
  | nil => intro b; exact Or.inl rfl
  | cons c1 r1 ih =>
      intro b
      cases b with
      | nil => exact Or.inr rfl
      | cons c2 r2 =>
          by_cases h12 : c1 < c2
          · exact Or.inl (by simp [charsLe, h12])
          · by_cases h21 : c2 < c1
            · exact Or.inr (by simp [charsLe, h21])
            · have he : c1 = c2 := le_antisymm (not_lt.mp h21) (not_lt.mp h12)
              subst he
              rcases ih r2 with h | h
              · exact Or.inl (by simp [charsLe, lt_irrefl, h])
              · exact Or.inr (by simp [charsLe, lt_irrefl, h])

theorem charsLe_trans :
    ∀ a b c, charsLe a b = true → charsLe b c = true → charsLe a c = true := by
  intro a
  induction a with
  | nil => intro b c _ _; rfl
  | cons c1 r1 ih =>
      intro b c hab hbc
      cases b with
      | nil => simp [charsLe] at hab
      | cons c2 r2 =>
          cases c with
          | nil => simp [charsLe] at hbc
          | cons c3 r3 =>
              simp only [charsLe] at hab hbc ⊢
              by_cases h12 : c1 < c2
              · by_cases h23 : c2 < c3
                · simp [lt_trans h12 h23]
                · by_cases h32 : c3 < c2
                  · rw [if_neg h23, if_pos h32] at hbc
                    cases hbc
                  · have he : c2 = c3 := le_antisymm (not_lt.mp h32) (not_lt.mp h23)
                    subst he
                    simp [h12]
              · by_cases h21 : c2 < c1
                · rw [if_neg h12, if_pos h21] at hab
                  cases hab
                · have he : c1 = c2 := le_antisymm (not_lt.mp h21) (not_lt.mp h12)
                  subst he
                  rw [if_neg h12, if_neg h21] at hab
                  by_cases h13 : c1 < c3
                  · simp [h13]
                  · by_cases h31 : c3 < c1
                    · rw [if_neg h13, if_pos h31] at hbc
                      cases hbc
                    · have he2 : c1 = c3 := le_antisymm (not_lt.mp h31) (not_lt.mp h13)
                      subst he2
                      rw [if_neg h13, if_neg h31] at hbc
                      rw [if_neg h13, if_neg h31]
                      exact ih r2 r3 hab hbc

theorem sortedUnique_sorted (l : List String) :
    List.Sorted (fun a b => strLe a b = true) (sortedUnique l) := by
  haveI : IsTotal String (fun a b => strLe a b = true) :=
    ⟨fun a b => charsLe_total a.data b.data⟩
  haveI : IsTrans String (fun a b => strLe a b = true) :=
    ⟨fun a b c hab hbc => charsLe_trans a.data b.data c.data hab hbc⟩
  exact List.sorted_insertionSort _ _

theorem sortedUnique_nodup (l : List String) : (sortedUnique l).Nodup :=
  ((List.perm_insertionSort _ _).nodup_iff).mpr (List.nodup_dedup l)

/-- Claim C8: every repository node stored in the repository-metadata map is
the fetched node with its primaryLanguage field normalized; an object with a
name member is replaced by that member, while an absent, null or string
value leaves the node untouched, and every other field of the node is
passed through verbatim. -/
theorem fullGraphql_primaryLanguage_normalization
    (up : Upstream) (o : String) (it : Bool) (res : FullResult)
    (nms : List String) (node : Json) (nm : String)
    (hrun : fetchReposFullGraphql up o it = some res)
    (hnames : (fetchPages up.repoPages .null).1.mapM nodeName = some nms)
    (hnodup : nms.Nodup)
    (hmem : node ∈ (fetchPages up.repoPages .null).1)
    (hnm : nodeName node = some nm) :
    fget res.repoMap nm = some (normalizePrimaryLanguage node) ∧
    (∀ (j : Json) (fs : List (String × Json)) (v : Json),
       j.get "primaryLanguage" = some (.obj fs) → fget fs "name" = some v →
       (normalizePrimaryLanguage j).get "primaryLanguage" = some v ∧
       ∀ k, k ≠ "primaryLanguage" →
         (normalizePrimaryLanguage j).get k = j.get k) ∧
    (∀ j : Json,
       (j.get "primaryLanguage" = none ∨ j.get "primaryLanguage" = some .null ∨
        ∃ s, j.get "primaryLanguage" = some (.str s)) →
       normalizePrimaryLanguage j = j) := by
  refine ⟨?_, ?_, ?_⟩
  · rcases fetchReposFullGraphql_inv up o it res hrun with
      ⟨r0, hfin, hfold, hrm, hbm, htm, hcl⟩
    rcases fold_step_success (processRepoNode up o it) _ _ _ node hfold hmem with
      ⟨a1, r1, hstep⟩
    rcases processRepoNode_inv up o it a1 node r1 hstep with
      ⟨nm0, bs0, bc0, hnm0, hbf0, _, _, _⟩
    have hnm0eq : nm0 = nm := by
      rw [hnm] at hnm0
      exact (Option.some.inj hnm0).symm
    rw [hnm0eq] at hbf0
    rcases fold_lookup up o it node nm bs0 bc0 _ nms _ r0 hnames hnodup hmem hnm
      hbf0 hfold with ⟨hl1, _, _, _⟩
    rw [hrm, fget_map_values, hl1]
    rfl
  · intro j fs v h hv
    rw [normalizePrimaryLanguage_obj j fs v h hv]
    exact ⟨get_setField_self j _ v _ h,
           fun k hk => get_setField_ne j _ k v hk⟩
  · intro j h
    exact normalizePrimaryLanguage_id j h

/-- Witness for claim C8 at a concrete one-repository run: the stored node
has primaryLanguage collapsed to the string and the other fields intact. -/
theorem fullGraphql_primaryLanguage_normalization_witness :
    fget ((fetchReposFullGraphql c8Up "acme" false).getD emptyFull).repoMap
      "widget" =
      some (.obj [("name", .str "widget"), ("primaryLanguage", .str "Python"),
                  ("refs", .obj [])]) := by
  have h := fullGraphql_primaryLanguage_normalization c8Up "acme" false
    ((fetchReposFullGraphql c8Up "acme" false).getD emptyFull)
    ["widget"] c8Node "widget" rfl rfl (by simp) (by
      show c8Node ∈ [c8Node]
      simp) rfl
  exact h.1.trans rfl

/-- Claim C9: in both aggregators, repository names are unique keys of every
returned mapping. -/
theorem output_maps_keys_nodup :
    (∀ (up : Upstream) (o : String) (it : Bool) (res : FullResult),
       fetchReposFullGraphql up o it = some res →
       (keysOf res.repoMap).Nodup ∧ (keysOf res.branchMap).Nodup ∧
       (keysOf res.tagMap).Nodup) ∧
    (∀ (up : Upstream) (o : String)
       (res : List (String × List String) × List Call),
       listReposBranchesGraphql up o = some res → (keysOf res.1).Nodup) := by
  constructor
  · intro up o it res hrun
    rcases fetchReposFullGraphql_inv up o it res hrun with
      ⟨r0, hfin, hfold, hrm, hbm, htm, _⟩
    have hP := foldlM_ind (processRepoNode up o it)
      (fun st => (keysOf st.repoMap).Nodup ∧ (keysOf st.branchMap).Nodup ∧
                 (keysOf st.tagMap).Nodup)
      (by
        intro a n r1 hstep hp
        rcases processRepoNode_inv up o it a n r1 hstep with
          ⟨nm, bs, bc, _, _, hrm1, hbm1, hro⟩
        refine ⟨?_, ?_, ?_⟩
        · rw [hrm1, keysOf_setKey]
          exact nodup_keyInsert _ _ hp.1
        · rw [hbm1, keysOf_setKey]
          exact nodup_keyInsert _ _ hp.2.1
        · rcases hro with ⟨ts, tc, _, _, htm1, _⟩ | ⟨_, htm1, _⟩
          · rw [htm1, keysOf_setKey]
            exact nodup_keyInsert _ _ hp.2.2
          · rw [htm1]
            exact hp.2.2)
      _ _ _ hfold ⟨by simp [keysOf], by simp [keysOf], by simp [keysOf]⟩
    refine ⟨?_, ?_, ?_⟩
    · rw [hrm, keysOf_map_values]
      exact hP.1
    · rw [hbm]
      exact hP.2.1
    · rw [htm]
      exact hP.2.2
  · intro up o res hrun
    rcases listReposBranchesGraphql_inv up o res hrun with ⟨hfin, hfold⟩
    exact foldlM_ind (processRepoNodeNames up o)
      (fun st => (keysOf st.1).Nodup)
      (by
        intro a n r1 hstep hp
        rcases processRepoNodeNames_inv up o a r1 n hstep with ⟨nm, names, h1⟩
        rw [h1, keysOf_setKey]
        exact nodup_keyInsert _ _ hp)
      _ _ _ hfold (by simp [keysOf])

/-- Witness for claim C9 at concrete runs of both aggregators. -/
theorem output_maps_keys_nodup_witness :
    (keysOf ((fetchReposFullGraphql c8Up "acme" false).getD emptyFull).repoMap).Nodup ∧
    (keysOf ((listReposBranchesGraphql up0 "acme").getD ([], [])).1).Nodup := by
  constructor
  · exact (output_maps_keys_nodup.1 c8Up "acme" false
      ((fetchReposFullGraphql c8Up "acme" false).getD emptyFull) rfl).1
  · exact output_maps_keys_nodup.2 up0 "acme"
      ((listReposBranchesGraphql up0 "acme").getD ([], [])) rfl

/-- Claim C10: whenever the upstream repository names are distinct, the
branch map of the full aggregator carries exactly the key list of the
repository map; the tag map carries the same keys when tags were requested
and stays empty when they were not. -/
theorem fullGraphql_maps_key_sets_align
    (up : Upstream) (o : String) (it : Bool) (res : FullResult)
    (nms : List String)
    (hrun : fetchReposFullGraphql up o it = some res)
    (hnames : (fetchPages up.repoPages .null).1.mapM nodeName = some nms)
    (hnodup : nms.Nodup) :
    keysOf res.branchMap = keysOf res.repoMap ∧
    (it = true → keysOf res.tagMap = keysOf res.repoMap) ∧
    (it = false → res.tagMap = []) := by
  rcases fetchReposFullGraphql_inv up o it res hrun with
    ⟨r0, hfin, hfold, hrm, hbm, htm, _⟩
  have hP := foldlM_ind (processRepoNode up o it)
    (fun st => keysOf st.branchMap = keysOf st.repoMap ∧
               (it = true → keysOf st.tagMap = keysOf st.repoMap) ∧
               (it = false → st.tagMap = []))
    (by
      intro a n r1 hstep hp
      rcases processRepoNode_inv up o it a n r1 hstep with
        ⟨nm, bs, bc, _, _, hrm1, hbm1, hro⟩
      refine ⟨?_, ?_, ?_⟩
      · rw [hrm1, hbm1, keysOf_setKey, keysOf_setKey, hp.1]
      · intro hit
        rcases hro with ⟨ts, tc, _, _, htm1, _⟩ | ⟨hit0, _, _⟩
        · rw [hrm1, htm1, keysOf_setKey, keysOf_setKey, hp.2.1 hit]
        · rw [hit] at hit0
          cases hit0
      · intro hit
        rcases hro with ⟨ts, tc, hit0, _, _, _⟩ | ⟨_, htm1, _⟩
        · rw [hit] at hit0
          cases hit0
        · rw [htm1]
          exact hp.2.2 hit)
    _ _ _ hfold ⟨rfl, fun _ => rfl, fun _ => rfl⟩
  refine ⟨?_, ?_, ?_⟩
  · rw [hbm, hrm, keysOf_map_values]
    exact hP.1
  · intro hit
    rw [htm, hrm, keysOf_map_values]
    exact hP.2.1 hit
  · intro hit
    rw [htm]
    exact hP.2.2 hit

/-- Witness for claim C10 at a concrete one-repository run without tags. -/
theorem fullGraphql_maps_key_sets_align_witness :
    keysOf ((fetchReposFullGraphql c8Up "acme" false).getD emptyFull).branchMap =
      keysOf ((fetchReposFullGraphql c8Up "acme" false).getD emptyFull).repoMap ∧
    ((fetchReposFullGraphql c8Up "acme" false).getD emptyFull).tagMap = [] := by
  have h := fullGraphql_maps_key_sets_align c8Up "acme" false
    ((fetchReposFullGraphql c8Up "acme" false).getD emptyFull)
    ["widget"] rfl rfl (by simp)
  exact ⟨h.1, h.2.2 rfl⟩

/-- Claim C7: every branch list returned by the name-only variant is
deduplicated and sorted in ascending lexicographic order whatever the
upstream order was; in particular upstream names dev, main, main come out
as the two-element list dev, main; and this deduplication and sorting is a
property of the simplified variant only: on upstream branch nodes arriving
as main, dev, main the full aggregator returns all three records in
upstream order, duplicate included. -/
theorem listRepos_branches_sorted_unique :
    (∀ (up : Upstream) (o : String)
       (res : List (String × List String) × List Call) (k : String)
       (l : List String),
       listReposBranchesGraphql up o = some res → fget res.1 k = some l →
       List.Sorted (fun a b => strLe a b = true) l ∧ l.Nodup) ∧
    ((listReposBranchesGraphql c7Up "acme").getD ([], [])).1 =
      [("r", ["dev", "main"])] ∧
    ((fetchReposFullGraphql c7FullUp "acme" false).getD emptyFull).branchMap =
      [("r", [c7MainNode, c7DevNode, c7MainNode])] := by
  refine ⟨?_, rfl, rfl⟩
  intro up o res k l hrun hget
  rcases listReposBranchesGraphql_inv up o res hrun with ⟨hfin, hfold⟩
  have hP := foldlM_ind (processRepoNodeNames up o)
    (fun st => ∀ k' l', fget st.1 k' = some l' →
       List.Sorted (fun a b => strLe a b = true) l' ∧ l'.Nodup)
    (by
      intro a n r1 hstep hp
      rcases processRepoNodeNames_inv up o a r1 n hstep with ⟨nm, names, h1⟩
      intro k' l' hget'
      rw [h1] at hget'
      rcases fget_setKey_cases a.1 nm k' (sortedUnique names) l' hget' with
        rfl | hold
      · exact ⟨sortedUnique_sorted names, sortedUnique_nodup names⟩
      · exact hp k' l' hold)
    _ _ _ hfold (by
      intro k' l' hget'
      cases hget')
  exact hP k l hget

/-- Witness for claim C7: the general sortedness statement applied to the
concrete run on upstream names dev, main, main. -/
theorem listRepos_branches_sorted_unique_witness :
    List.Sorted (fun a b => strLe a b = true) ["dev", "main"] ∧
    (["dev", "main"] : List String).Nodup :=
  listRepos_branches_sorted_unique.1 c7Up "acme"
    ((listReposBranchesGraphql c7Up "acme").getD ([], [])) "r" ["dev", "main"]
    rfl rfl

/-- Claim C3: a repository node whose embedded branch connection reports
hasNextPage true with endCursor C seeds the branch list with its inline
nodes, triggers a follow-up refs fetch scoped to this repository whose
first request starts exactly at cursor C, and appends the follow-up nodes
after the inline nodes in fetch order; the branch requests recorded for the
repository are exactly the requests of this follow-up chain. -/
theorem fullGraphql_branch_followup_append
    (up : Upstream) (o : String) (it : Bool) (res : FullResult)
    (nms : List String) (node : Json) (nm : String)
    (nfs refs pifs : List (String × Json)) (inline : List Json) (C : Json)
    (hrun : fetchReposFullGraphql up o it = some res)
    (hnames : (fetchPages up.repoPages .null).1.mapM nodeName = some nms)
    (hnodup : nms.Nodup)
    (hmem : node ∈ (fetchPages up.repoPages .null).1)
    (hnm : nodeName node = some nm)
    (hnode : node = .obj nfs)
    (hrefs : fgetDict nfs "refs" = some refs)
    (hinl : fgetList refs "nodes" = some inline)
    (hpi : fgetDict refs "pageInfo" = some pifs)
    (hnext : fget pifs "hasNextPage" = some (.bool true))
    (hcur : fget pifs "endCursor" = some C)
    (hfin : (fetchPages (up.branchPages nm) C).2.2 = true) :
    fget res.branchMap nm = some (inline ++ (fetchPages (up.branchPages nm) C).1) ∧
    res.calls.filter (Call.isBranchFor nm) =
      (fetchPages (up.branchPages nm) C).2.1.map (Call.branches o nm) ∧
    (fetchPages (up.branchPages nm) C).2.1.head? = some C ∧
    Call.branches o nm C ∈ res.calls := by
  have hbfc : branchFetch up o nm node =
      some (inline ++ (fetchPages (up.branchPages nm) C).1,
            (fetchPages (up.branchPages nm) C).2.1.map (Call.branches o nm)) := by
    subst hnode
    simp [branchFetch, hrefs, hinl, hpi, hnext, hcur, Json.truthy, hfin]
  rcases fetchReposFullGraphql_inv up o it res hrun with
    ⟨r0, hfin0, hfold, hrm, hbm, htm, hcl⟩
  rcases fold_lookup up o it node nm _ _ _ nms _ r0 hnames hnodup hmem hnm
    hbfc hfold with ⟨hl1, hl2, hl3, hl4⟩
  have hinit : (((fetchPages up.repoPages .null).2.1.map Call.repos).filter
      (Call.isBranchFor nm)) = [] := filter_isBranchFor_repos nm _
  rcases fetchPages_head_cursor (up.branchPages nm) C with ⟨cs, hcs⟩
  refine ⟨?_, ?_, ?_, ?_⟩
  · rw [hbm]
    exact hl2
  · rw [hcl, hl3]
    simp [hinit]
  · rw [hcs]
    rfl
  · have hmemf : Call.branches o nm C ∈ res.calls.filter (Call.isBranchFor nm) := by
      rw [hcl, hl3, hinit, List.nil_append, hcs, List.map_cons]
      exact List.mem_cons_self _ _
    exact List.mem_of_mem_filter hmemf

/-- Witness for claim C3: one inline node and one follow-up node yield
exactly the two records in the order inline first, follow-up second, and
the single branch request carries cursor C1. -/
theorem fullGraphql_branch_followup_append_witness :
    fget ((fetchReposFullGraphql c3Up "acme" false).getD emptyFull).branchMap
      "r" = some [c3B1, c3B2] ∧
    Call.branches "acme" "r" (.str "C1") ∈
      ((fetchReposFullGraphql c3Up "acme" false).getD emptyFull).calls := by
  have h := fullGraphql_branch_followup_append c3Up "acme" false
    ((fetchReposFullGraphql c3Up "acme" false).getD emptyFull)
    ["r"] c3Node "r"
    [("name", .str "r"),
     ("refs", .obj [("nodes", .arr [c3B1]),
                    ("pageInfo", .obj [("hasNextPage", .bool true),
                                       ("endCursor", .str "C1")])])]
    [("nodes", .arr [c3B1]),
     ("pageInfo", .obj [("hasNextPage", .bool true), ("endCursor", .str "C1")])]
    [("hasNextPage", .bool true), ("endCursor", .str "C1")]
    [c3B1] (.str "C1")
    rfl rfl (by simp) (by
      show c3Node ∈ [c3Node]
      simp) rfl rfl rfl rfl rfl rfl rfl rfl
  exact ⟨h.1, h.2.2.2⟩

/-- Claim C4: with tag inclusion requested, a repository node whose embedded
tag connection reports hasNextPage false with zero inline nodes triggers one
fresh tag fetch starting from no cursor whose result becomes the tag list;
the tag requests recorded for the repository are exactly the requests of
this fresh chain, the first of which carries a null cursor; and the
fallback never applies to branches: an embedded branch connection with zero
inline nodes and hasNextPage false records no branch request at all. -/
theorem fullGraphql_tag_fresh_fetch_fallback
    (up : Upstream) (o : String) (res : FullResult)
    (nms : List String) (node : Json) (nm : String)
    (nfs tags tpifs refs bpifs : List (String × Json))
    (hrun : fetchReposFullGraphql up o true = some res)
    (hnames : (fetchPages up.repoPages .null).1.mapM nodeName = some nms)
    (hnodup : nms.Nodup)
    (hmem : node ∈ (fetchPages up.repoPages .null).1)
    (hnm : nodeName node = some nm)
    (hnode : node = .obj nfs)
    (htags : fgetDict nfs "tags" = some tags)
    (htinl : fgetList tags "nodes" = some [])
    (htpi : fgetDict tags "pageInfo" = some tpifs)
    (htnext : fget tpifs "hasNextPage" = some (.bool false))
    (htfin : (fetchPages (up.tagPages nm) .null).2.2 = true)
    (hrefs : fgetDict nfs "refs" = some refs)
    (hbinl : fgetList refs "nodes" = some [])
    (hbpi : fgetDict refs "pageInfo" = some bpifs)
    (hbnext : fget bpifs "hasNextPage" = some (.bool false)) :
    fget res.tagMap nm = some (fetchPages (up.tagPages nm) .null).1 ∧
    res.calls.filter (Call.isTagFor nm) =
      (fetchPages (up.tagPages nm) .null).2.1.map (Call.tags o nm) ∧
    (fetchPages (up.tagPages nm) .null).2.1.head? = some .null ∧
    res.calls.filter (Call.isBranchFor nm) = [] := by
  have hbfc : branchFetch up o nm node = some ([], []) := by
    subst hnode
    simp [branchFetch, hrefs, hbinl, hbpi, hbnext, Json.truthy]
  have htfc : tagFetch up o nm node =
      some ((fetchPages (up.tagPages nm) .null).1,
            (fetchPages (up.tagPages nm) .null).2.1.map (Call.tags o nm)) := by
    subst hnode
    simp [tagFetch, htags, htinl, htpi, htnext, Json.truthy, htfin]
  rcases fetchReposFullGraphql_inv up o true res hrun with
    ⟨r0, hfin0, hfold, hrm, hbm, htm, hcl⟩
  rcases fold_lookup up o true node nm _ _ _ nms _ r0 hnames hnodup hmem hnm
    hbfc hfold with ⟨hl1, hl2, hl3, hl4⟩
  rcases hl4 _ _ rfl htfc with ⟨hl5, hl6⟩
  have hinitT : (((fetchPages up.repoPages .null).2.1.map Call.repos).filter
      (Call.isTagFor nm)) = [] := filter_isTagFor_repos nm _
  have hinitB : (((fetchPages up.repoPages .null).2.1.map Call.repos).filter
      (Call.isBranchFor nm)) = [] := filter_isBranchFor_repos nm _
  rcases fetchPages_head_cursor (up.tagPages nm) .null with ⟨cs, hcs⟩
  refine ⟨?_, ?_, ?_, ?_⟩
  · rw [htm]
    exact hl5
  · rw [hcl, hl6]
    simp [hinitT]
  · rw [hcs]
    rfl
  · rw [hcl, hl3]
    simp [hinitB]

/-- Witness for claim C4: a concrete run in which the fresh tag fetch is
exactly one request with a null cursor, merging one tag, while no branch
request is issued for the repository. -/
theorem fullGraphql_tag_fresh_fetch_fallback_witness :
    fget ((fetchReposFullGraphql c4Up "acme" true).getD emptyFull).tagMap "r" =
      some [c4Tag] ∧
    ((fetchReposFullGraphql c4Up "acme" true).getD emptyFull).calls.filter
      (Call.isTagFor "r") = [Call.tags "acme" "r" .null] ∧
    ((fetchReposFullGraphql c4Up "acme" true).getD emptyFull).calls.filter
      (Call.isBranchFor "r") = [] := by
  have h := fullGraphql_tag_fresh_fetch_fallback c4Up "acme"
    ((fetchReposFullGraphql c4Up "acme" true).getD emptyFull)
    ["r"] c4Node "r"
    [("name", .str "r"),
     ("refs", .obj [("nodes", .arr []),
                    ("pageInfo", .obj [("hasNextPage", .bool false)])]),
     ("tags", .obj [("nodes", .arr []),
                    ("pageInfo", .obj [("hasNextPage", .bool false)])])]
    [("nodes", .arr []), ("pageInfo", .obj [("hasNextPage", .bool false)])]
    [("hasNextPage", .bool false)]
    [("nodes", .arr []), ("pageInfo", .obj [("hasNextPage", .bool false)])]
    [("hasNextPage", .bool false)]
    rfl rfl (by simp) (by
      show c4Node ∈ [c4Node]
      simp) rfl rfl rfl rfl rfl rfl rfl rfl rfl rfl rfl
  exact ⟨h.1.trans rfl, h.2.1.trans rfl, h.2.2.2⟩

/-- Counterexample to claim C1: on a one-repository run whose branch record
and tag record both carry a target field, the records come back with the
raw target still present and with no commit and no commit_full key, for
branches and tags alike. -/
theorem fullGraphql_no_commit_normalization_cex :
    fget ((fetchReposFullGraphql c1Up "acme" true).getD emptyFull).branchMap
      "widget" = some [c1Branch] ∧
    c1Branch.get "commit" = none ∧
    c1Branch.get "commit_full" = none ∧
    c1Branch.get "target" = some (.obj [("oid", .str "abc123"),
                                        ("messageHeadline", .str "init")]) ∧
    fget ((fetchReposFullGraphql c1Up "acme" true).getD emptyFull).tagMap
      "widget" = some [c1Tag] ∧
    c1Tag.get "commit" = none ∧
    c1Tag.get "commit_full" = none :=
  ⟨rfl, rfl, rfl, rfl, rfl, rfl, rfl⟩

/-- Every branch record a successful branch collection returns is either an
inline upstream node or a node of one of the scripted follow-up pages. -/
theorem branchFetch_mem (up : Upstream) (o nm : String)
    (nfs refs : List (String × Json)) (inline bs : List Json) (bc : List Call)
    (hrefs : fgetDict nfs "refs" = some refs)
    (hinl : fgetList refs "nodes" = some inline)
    (h : branchFetch up o nm (.obj nfs) = some (bs, bc)) :
    ∀ rec ∈ bs, rec ∈ inline ∨
      rec ∈ ((up.branchPages nm).map Page.nodes).flatten := by
  simp only [branchFetch] at h
  rw [hrefs] at h
  dsimp only at h
  rw [hinl] at h
  dsimp only at h
  cases hp : fgetDict refs "pageInfo" with
  | none =>
      rw [hp] at h
      cases h
  | some pifs =>
      rw [hp] at h
      dsimp only at h
      by_cases hnext : (((fget pifs "hasNextPage").getD .null).truthy : Bool)
      · rw [if_pos hnext] at h
        by_cases hfin : ((fetchPages (up.branchPages nm)
            ((fget pifs "endCursor").getD .null)).2.2 : Bool)
        · rw [if_pos hfin] at h
          injection h with h'
          have hbs : bs = inline ++ (fetchPages (up.branchPages nm)
              ((fget pifs "endCursor").getD .null)).1 :=
            (congrArg Prod.fst h').symm
          intro rec hrec
          rw [hbs] at hrec
          rcases List.mem_append.mp hrec with h1 | h2
          · exact Or.inl h1
          · exact Or.inr (fetchPages_node_mem _ _ _ h2)
        · rw [if_neg hfin] at h
          cases h
      · rw [if_neg hnext] at h
        injection h with h'
        have hbs : bs = inline := (congrArg Prod.fst h').symm
        intro rec hrec
        exact Or.inl (hbs ▸ hrec)

/-- Every tag record a successful tag collection returns is either an inline
upstream node or a node of one of the scripted tag pages. -/
theorem tagFetch_mem (up : Upstream) (o nm : String)
    (nfs tags : List (String × Json)) (inline ts : List Json) (tc : List Call)
    (htags : fgetDict nfs "tags" = some tags)
    (hinl : fgetList tags "nodes" = some inline)
    (h : tagFetch up o nm (.obj nfs) = some (ts, tc)) :
    ∀ rec ∈ ts, rec ∈ inline ∨
      rec ∈ ((up.tagPages nm).map Page.nodes).flatten := by
  simp only [tagFetch] at h
  rw [htags] at h
  dsimp only at h
  rw [hinl] at h
  dsimp only at h
  cases hp : fgetDict tags "pageInfo" with
  | none =>
      rw [hp] at h
      cases h
  | some pifs =>
      rw [hp] at h
      dsimp only at h
      by_cases hnext : (((fget pifs "hasNextPage").getD .null).truthy : Bool)
      · rw [if_pos hnext] at h
        by_cases hfin : ((fetchPages (up.tagPages nm)
            ((fget pifs "endCursor").getD .null)).2.2 : Bool)
        · rw [if_pos hfin] at h
          injection h with h'
          have hts : ts = inline ++ (fetchPages (up.tagPages nm)
              ((fget pifs "endCursor").getD .null)).1 :=
            (congrArg Prod.fst h').symm
          intro rec hrec
          rw [hts] at hrec
          rcases List.mem_append.mp hrec with h1 | h2
          · exact Or.inl h1
          · exact Or.inr (fetchPages_node_mem _ _ _ h2)
        · rw [if_neg hfin] at h
          cases h
      · rw [if_neg hnext] at h
        by_cases hemp : inline.isEmpty
        · rw [if_pos hemp] at h
          by_cases hfin : ((fetchPages (up.tagPages nm) .null).2.2 : Bool)
          · rw [if_pos hfin] at h
            injection h with h'
            have hts : ts = inline ++ (fetchPages (up.tagPages nm) .null).1 :=
              (congrArg Prod.fst h').symm
            intro rec hrec
            rw [hts] at hrec
            rcases List.mem_append.mp hrec with h1 | h2
            · exact Or.inl h1
            · exact Or.inr (fetchPages_node_mem _ _ _ h2)
          · rw [if_neg hfin] at h
            cases h
        · rw [if_neg hemp] at h
          injection h with h'
          have hts : ts = inline := (congrArg Prod.fst h').symm
          intro rec hrec
          exact Or.inl (hts ▸ hrec)

/-- Claim C1 (amended): the full aggregator performs no commit
normalization at all; every branch record and (when tags were requested)
every tag record it returns for a repository is one of the raw upstream
node dictionaries, passed through verbatim, so a record with a target field
keeps it and gains no commit or commit_full key. -/
theorem fullGraphql_records_passed_verbatim
    (up : Upstream) (o : String) (it : Bool) (res : FullResult)
    (nms : List String) (node : Json) (nm : String)
    (nfs refs : List (String × Json)) (inline : List Json)
    (hrun : fetchReposFullGraphql up o it = some res)
    (hnames : (fetchPages up.repoPages .null).1.mapM nodeName = some nms)
    (hnodup : nms.Nodup)
    (hmem : node ∈ (fetchPages up.repoPages .null).1)
    (hnm : nodeName node = some nm)
    (hnode : node = .obj nfs)
    (hrefs : fgetDict nfs "refs" = some refs)
    (hinl : fgetList refs "nodes" = some inline) :
    (∀ l, fget res.branchMap nm = some l →
       ∀ rec ∈ l, rec ∈ inline ∨
         rec ∈ ((up.branchPages nm).map Page.nodes).flatten) ∧
    (∀ (tags : List (String × Json)) (tinline : List Json) (l : List Json),
       it = true → fgetDict nfs "tags" = some tags →
       fgetList tags "nodes" = some tinline →
       fget res.tagMap nm = some l →
       ∀ rec ∈ l, rec ∈ tinline ∨
         rec ∈ ((up.tagPages nm).map Page.nodes).flatten) := by
  rcases fetchReposFullGraphql_inv up o it res hrun with
    ⟨r0, hfin, hfold, hrm, hbm, htm, hcl⟩
  rcases fold_step_success (processRepoNode up o it) _ _ _ node hfold hmem with
    ⟨a1, r1, hstep⟩
  rcases processRepoNode_inv up o it a1 node r1 hstep with
    ⟨nm0, bs0, bc0, hnm0, hbf0, _, _, hro⟩
  have hnm0eq : nm0 = nm := by
    rw [hnm] at hnm0
    exact (Option.some.inj hnm0).symm
  rw [hnm0eq] at hbf0 hro
  rcases fold_lookup up o it node nm bs0 bc0 _ nms _ r0 hnames hnodup hmem hnm
    hbf0 hfold with ⟨hl1, hl2, hl3, hl4⟩
  constructor
  · intro l hget
    rw [hbm, hl2] at hget
    have hlbs : l = bs0 := (Option.some.inj hget).symm
    subst hnode
    rw [hlbs]
    exact branchFetch_mem up o nm nfs refs inline bs0 bc0 hrefs hinl hbf0
  · intro tags tinline l hit htags htinl hget
    rcases hro with ⟨ts0, tc0, _, htf0, _, _⟩ | ⟨hit0, _, _⟩
    · rcases hl4 ts0 tc0 hit htf0 with ⟨hl5, _⟩
      rw [htm, hl5] at hget
      have hlts : l = ts0 := (Option.some.inj hget).symm
      subst hnode
      rw [hlts]
      exact tagFetch_mem up o nm nfs tags tinline ts0 tc0 htags htinl htf0
    · rw [hit] at hit0
      cases hit0

/-- Witness for claim C1 (amended), applied to the concrete run of the
counterexample upstream: the single returned branch record is the inline
upstream node itself. -/
theorem fullGraphql_records_passed_verbatim_witness :
    c1Branch ∈ [c1Branch] ∨
    c1Branch ∈ ((c1Up.branchPages "widget").map Page.nodes).flatten := by
  have h := fullGraphql_records_passed_verbatim c1Up "acme" true
    ((fetchReposFullGraphql c1Up "acme" true).getD emptyFull)
    ["widget"] c1Node "widget"
    [("name", .str "widget"),
     ("refs", .obj [("nodes", .arr [c1Branch]), ("pageInfo", .obj [])]),
     ("tags", .obj [("nodes", .arr [c1Tag]), ("pageInfo", .obj [])])]
    [("nodes", .arr [c1Branch]), ("pageInfo", .obj [])]
    [c1Branch]
    rfl rfl (by simp) (by
      show c1Node ∈ [c1Node]
      simp) rfl rfl rfl rfl
  exact h.1 [c1Branch] rfl c1Branch (by simp)

end GitIngest
